import Mathlib

/-!
# Verification of the document-preprocessor core

A shallow embedding, over `List Char` texts and `Nat` offsets, of the core of
the Thai-legal-document structuring pipeline:

* `chunk_text_semantic`  (document_processor.py, lines 22-49) — the span segmenter;
* `postprocess_nodes`    (document_processor_openai.py, lines 89-103) — the
  per-scope reconciler / boundary resolver (dedup by `global_start`, sort,
  chain `global_end`, slice `text`);
* the top-level preamble synthesis of `run_gemini_pipeline`
  (document_processor_openai.py, lines 196-199) and the post-reconciliation
  preamble synthesis of `run_final_pipeline` (document_processor.py, 229-241);
* the "Trust but Verify" validation gate of `_extract_structure_gemini`
  (document_processor_openai.py, lines 126-160);
* `build_tree`           (document_processor.py, lines 52-105);
* `summarize_nodes_recursively` (document_processor.py, lines 108-147).

Python `str` values are modelled as `List Char`; `text[a:b]` with
`0 ≤ a, b` is `pySlice`; `str.strip()` is `pyStrip`.  Python `dict`
comprehensions keyed by `global_start` are modelled by `dictValues`
(first-insertion position, last-written value, exactly as CPython dicts
behave), and the stable `sorted(..., key=...)` by `List.insertionSort` on
the key order (on the deduplicated input the keys are unique, so every
stable sort yields the same list).

Offsets in the `document_processor_openai.py` path are `Nat`: there the
"Trust but Verify" gate enforces `0 <= start_index < len` before
`global_start` is formed, so every offset flowing into
`postprocess_nodes` is a nonnegative in-range integer.
`document_processor.py` has no such gate: `run_final_pipeline`'s
candidate offsets come straight from parsed JSON and the segmenter's
`start_char = actual_end - overlap_chars` can go negative, so those
offsets are `Int`, and `pyAdj`/`pySliceI`/`pyRfind` implement CPython's
index adjustment (a negative index counts from the end, then both ends
are clamped into `[0, len]`) exactly as slicing and `str.rfind` do.
-/

namespace DocPrep

/-! ## Python string primitives -/

/-- Python `text[a:b]` for `0 ≤ a ≤ b` (with Python's clamping at the ends). -/
def pySlice (l : List Char) (a b : Nat) : List Char :=
  (l.drop a).take (b - a)

/-- CPython's index adjustment for slice bounds and for the bounds of
`str.find`/`str.rfind`: a negative index counts from the end of the
string (clamped at 0), a nonnegative one is clamped at the length. -/
def pyAdj (len : Nat) (i : Int) : Nat :=
  if i < 0 then (i + len).toNat else min i.toNat len

/-- Python `text[a:b]` for arbitrary `Int` indices, with CPython's
negative-index and clamping semantics: `text[-3:7]` reads
`text[len-3:7]`, which is empty when `len - 3 ≥ 7`. -/
def pySliceI (l : List Char) (a b : Int) : List Char :=
  pySlice l (pyAdj l.length a) (pyAdj l.length b)

/-- The characters Python's `str.strip()` removes. -/
def isPySpace (c : Char) : Bool :=
  c == ' ' || c == '\t' || c == '\n' || c == '\r' || c == '\x0b' || c == '\x0c'

/-- Python `str.strip()`: drop whitespace from both ends. -/
def pyStrip (l : List Char) : List Char :=
  ((l.dropWhile isPySpace).reverse.dropWhile isPySpace).reverse

/-- Does `sub` occur in `text` starting at position `p`? -/
def subAt (text sub : List Char) (p : Nat) : Bool :=
  (text.drop p).take sub.length == sub

/-- Scan downward from `p` to `a` for the rightmost occurrence of `sub`. -/
def rfindFrom (text sub : List Char) (a : Nat) : Nat → Option Nat
  | 0 => if subAt text sub 0 then some 0 else none
  | p + 1 =>
    if subAt text sub (p + 1) then some (p + 1)
    else if p + 1 ≤ a then none
    else rfindFrom text sub a p

/-- Python `text.rfind(sub, a, b)` for arbitrary `Int` bounds: with
`a' = pyAdj len a` and `b' = pyAdj len b` (CPython's index adjustment),
the largest `p` with `a' ≤ p` and `p + len(sub) ≤ b'` such that `sub`
occurs at `p` (`none` for Python's `-1`).  For the empty `sub` this
returns `b'` whenever `a' ≤ b'`, as CPython does. -/
def pyRfind (text sub : List Char) (a b : Int) : Option Nat :=
  if pyAdj text.length b < pyAdj text.length a + sub.length then none
  else rfindFrom text sub (pyAdj text.length a) (pyAdj text.length b - sub.length)

/-! ## Span segmenter: `chunk_text_semantic` (document_processor.py 22-49)

The Python `while` loop is modelled with explicit fuel; `none` means the
loop did not finish within the given fuel (for the claims below, an
execution that returns `none` for every fuel is a non-terminating run).
The step `start_char = actual_end - overlap_chars` can make `start_char`
negative, and Python then simply carries on, the negative value flowing
into `rfind` and slicing under their negative-index semantics; offsets
are therefore `Int`, and every `some` result is a real terminating run of
the Python loop. -/

structure Chunk where
  start_char : Int
  end_char : Int
  ctext : List Char
  global_start : Int
deriving Repr, DecidableEq

/-- `separators = ["\n\n", ". ", " ", ""]` from the Python source. -/
def chunkSeparators : List (List Char) :=
  ["\n\n".data, ". ".data, " ".data, "".data]

/-- The `for sep in separators` loop: first separator (in priority order)
found by `rfind`, returning the position and the separator length. -/
def firstSep (text : List Char) (a b : Int) : List (List Char) → Option (Nat × Nat)
  | [] => none
  | sep :: rest =>
    match pyRfind text sep a b with
    | some p => some (p, sep.length)
    | none => firstSep text a b rest

/-- The separator-adjusted `actual_end` for one iteration (lines 36-45):
search window `[max start (ideal - 5000), ideal)`; if every separator
misses, `actual_end = ideal_end`.  (With a nonnegative `start` the `""`
separator always matches; with a negative `start` the adjusted window can
be inverted, and then every separator misses.) -/
def actualEnd (text : List Char) (start ideal : Int) : Int :=
  match firstSep text (max start (ideal - 5000)) ideal chunkSeparators with
  | some pl => ((pl.1 + pl.2 : Nat) : Int)
  | none => ideal

/-- The `while start_char < len(text)` loop of `chunk_text_semantic`;
`start_char` is an `Int` because `actual_end - overlap_chars` can go
negative without stopping the Python loop. -/
def chunkLoop (text : List Char) (csize osize : Nat) : Nat → Int → Option (List Chunk)
  | 0, _ => none
  | fuel + 1, start =>
    if start < (text.length : Int) then
      if (text.length : Int) ≤ start + csize then
        some [⟨start, text.length, pySliceI text start text.length, start⟩]
      else
        (chunkLoop text csize osize fuel
            (actualEnd text start (start + csize) - osize)).map
          (fun rest => ⟨start, actualEnd text start (start + csize),
            pySliceI text start (actualEnd text start (start + csize)), start⟩ :: rest)
    else some []

/-- `chunk_text_semantic(text, chunk_size_chars, overlap_chars)`. -/
def chunk_text_semantic (text : List Char) (csize osize fuel : Nat) :
    Option (List Chunk) :=
  if text.length ≤ csize then some [⟨0, text.length, text, 0⟩]
  else chunkLoop text csize osize fuel 0

/-! ## Reconciliation: dedup by `global_start` + stable sort

`{h['global_start']: h for h in hs}` followed by
`sorted(list(....values()), key=lambda x: x['global_start'])`, the shared
construct of document_processor.py line 229 and
document_processor_openai.py line 93. -/

/-- A raw candidate node (`type`, `title`, `global_start` already computed). -/
structure RNode where
  ntype : List Char
  title : List Char
  global_start : Nat
deriving Repr, DecidableEq

/-- One CPython dict insertion keyed by `global_start`: overwrite the value
at an existing key (keeping its position), else append at the end. -/
def dictInsert (acc : List RNode) (n : RNode) : List RNode :=
  if acc.any (fun m => m.global_start == n.global_start) then
    acc.map (fun m => if m.global_start == n.global_start then n else m)
  else acc ++ [n]

/-- `list({n['global_start']: n for n in l}.values())`. -/
def dictValues (l : List RNode) : List RNode :=
  l.foldl dictInsert []

/-- Order by `global_start` (the Python `key=lambda x: x['global_start']`). -/
def gsLE (a b : RNode) : Prop := a.global_start ≤ b.global_start

instance : DecidableRel gsLE := fun a b => Nat.decLe a.global_start b.global_start

instance : IsTotal RNode gsLE := ⟨fun a b => Nat.le_total a.global_start b.global_start⟩

instance : IsTrans RNode gsLE := ⟨fun _ _ _ => Nat.le_trans⟩

/-- `sorted(list({...}.values()), key=lambda x: x['global_start'])`. -/
def reconcile (l : List RNode) : List RNode :=
  List.insertionSort gsLE (dictValues l)

/-! ## Boundary resolution: `postprocess_nodes` (document_processor_openai.py 89-103) -/

/-- A resolved structural unit (the dict after `postprocess_nodes` has set
`global_end` and `text`; `children` is carried by the enclosing tree). -/
structure UNode where
  ntype : List Char
  title : List Char
  global_start : Nat
  global_end : Nat
  utext : List Char
deriving Repr, DecidableEq

/-- The two end-assignment loops (lines 94-97): every node's `global_end`
is the next node's `global_start`, and the last node's is `parent_end`. -/
def chainEnds (pend : Nat) : List RNode → List (RNode × Nat)
  | [] => []
  | [x] => [(x, pend)]
  | x :: y :: rest => (x, y.global_start) :: chainEnds pend (y :: rest)

/-- `postprocess_nodes(nodes, parent_text, global_offset)`: keep nodes whose
`global_start` is inside the scope, dedup + sort, chain the ends, slice each
node's text out of `parent_text` by scope-local offsets. -/
def postprocess_nodes (nodes : List RNode) (parent_text : List Char)
    (global_offset : Nat) : List UNode :=
  (chainEnds (global_offset + parent_text.length)
      (reconcile (nodes.filter (fun n =>
        global_offset ≤ n.global_start
          && n.global_start < global_offset + parent_text.length)))).map
    (fun p => ⟨p.1.ntype, p.1.title, p.1.global_start, p.2,
      pySlice parent_text (p.1.global_start - global_offset) (p.2 - global_offset)⟩)

/-! ## Preamble synthesis and the two pipelines

`run_gemini_pipeline` (document_processor_openai.py 174-246) prepends a
preamble to the *raw* architect output when that output is empty or its
first element's `global_start` is positive (lines 196-197), before
reconciliation; the surveyor and detailer passes (lines 211-241) call
`postprocess_nodes` on each parent's own text with *no* preamble step.
`run_final_pipeline` (document_processor.py 229-241) inserts the preamble
*after* reconciliation, then chains ends against the document length and
slices from the full document.  The unreliable LLM extractor is abstracted
as the given raw candidate lists (`raw1`, and the oracles `o2`, `o3` for
the per-parent calls); every claim below is proved for *all* oracle
outputs. -/

/-- `{'type': 'preamble', 'title': 'Preamble', 'global_start': 0}`. -/
def preambleR : RNode := ⟨"preamble".data, "Preamble".data, 0⟩

/-- Lines 196-197: `if not top_level_nodes_raw or
top_level_nodes_raw[0].get('global_start', 0) > 0: insert(0, preamble)`
(every validated node carries `global_start`, so `.get` never defaults). -/
def insertPreambleRaw (raws : List RNode) : List RNode :=
  match raws with
  | [] => [preambleR]
  | r :: rest => if 0 < r.global_start then preambleR :: r :: rest else r :: rest

/-- A raw structure candidate of `run_final_pipeline`: unlike the gated
openai path, document_processor.py (lines 217-222) checks only that the
keys `type`/`title`/`start_index`/`end_index` exist, so
`global_start = start_index + chunk_global_start` is an arbitrary,
unvalidated `Int`. -/
structure HNode where
  ntype : List Char
  title : List Char
  global_start : Int
deriving Repr, DecidableEq

/-- A resolved header of `run_final_pipeline`: `global_end` chained, text
sliced from the full document with Python's `Int`-index slicing. -/
structure HUnit where
  ntype : List Char
  title : List Char
  global_start : Int
  global_end : Int
  utext : List Char
deriving Repr, DecidableEq

/-- CPython dict insertion keyed by the (possibly negative) `global_start`. -/
def dictInsertH (acc : List HNode) (n : HNode) : List HNode :=
  if acc.any (fun m => m.global_start == n.global_start) then
    acc.map (fun m => if m.global_start == n.global_start then n else m)
  else acc ++ [n]

/-- `list({h['global_start']: h for h in all_headers}.values())`. -/
def dictValuesH (l : List HNode) : List HNode :=
  l.foldl dictInsertH []

/-- Order by `global_start` (the sort key of line 229). -/
def gsLEH (a b : HNode) : Prop := a.global_start ≤ b.global_start

instance : DecidableRel gsLEH :=
  fun a b => inferInstanceAs (Decidable (a.global_start ≤ b.global_start))

instance : IsTotal HNode gsLEH := ⟨fun a b => Int.le_total a.global_start b.global_start⟩

instance : IsTrans HNode gsLEH := ⟨fun _ _ _ => le_trans⟩

/-- Line 229: `sorted(list({...}.values()), key=lambda x: x['global_start'])`. -/
def reconcileH (l : List HNode) : List HNode :=
  List.insertionSort gsLEH (dictValuesH l)

/-- The two end-assignment loops of lines 235-238, against `Int` offsets. -/
def chainEndsH (pend : Int) : List HNode → List (HNode × Int)
  | [] => []
  | [x] => [(x, pend)]
  | x :: y :: rest => (x, y.global_start) :: chainEndsH pend (y :: rest)

/-- `{"type": "preamble", "title": "Preamble", "global_start": 0}`. -/
def preambleH : HNode := ⟨"preamble".data, "Preamble".data, 0⟩

/-- Lines 231-233 of document_processor.py: insert the preamble into the
already reconciled, sorted list only when its first `global_start` is
strictly positive.  Nothing validates offsets on this path, so a negative
first `global_start` (possible with hallucinated `start_index` values)
does not trigger the insertion. -/
def insertPreambleFinal (uniq : List HNode) : List HNode :=
  match uniq with
  | [] => []
  | r :: rest => if 0 < r.global_start then preambleH :: r :: rest else r :: rest

/-- Lines 229-241 of document_processor.py: reconcile all headers, insert
the preamble, chain `global_end`s against `len(document_text)`, and slice
each `text` directly from the full document (with Python's `Int`-index
slicing semantics). -/
def run_final_headers (all_headers : List HNode) (document : List Char) :
    List HUnit :=
  (chainEndsH (document.length : Int)
      (insertPreambleFinal (reconcileH all_headers))).map
    (fun p => ⟨p.1.ntype, p.1.title, p.1.global_start, p.2,
      pySliceI document p.1.global_start p.2⟩)

/-- Step 1 of `run_gemini_pipeline` (line 199): resolve the top scope. -/
def step1 (document : List Char) (raws : List RNode) : List UNode :=
  postprocess_nodes (insertPreambleRaw raws) document 0

/-- Step 2 (lines 211-214): each parent that has non-blank text and is not
a preamble gets its children from `postprocess_nodes` over its own text;
skipped parents keep the empty `children` list. -/
def step2children (parent : UNode) (raws : List RNode) : List UNode :=
  if (pyStrip parent.utext).isEmpty || parent.ntype == "preamble".data then []
  else postprocess_nodes raws parent.utext parent.global_start

/-- Step 3 (`process_recursively`, lines 221-239): a childless node whose
text is non-blank and whose type is neither `preamble` nor `article` gets
article children the same way.  (The sub-chunking of the node's text only
determines which raw candidates the extractor reports; those are the
`raws` oracle input here.) -/
def step3children (node : UNode) (raws : List RNode) : List UNode :=
  if !(pyStrip node.utext).isEmpty
      && node.ntype != "preamble".data && node.ntype != "article".data then
    postprocess_nodes raws node.utext node.global_start
  else []

/-- The whole multi-pass pipeline, whose trees have depth at most three
(top nodes → their sections → their articles): step 3 recurses into the
children created by step 2 when there are any, and otherwise attaches
articles directly to the childless top node. -/
def runPipeline (document : List Char) (raw1 : List RNode)
    (o2 o3 : UNode → List RNode) : List (UNode × List (UNode × List UNode)) :=
  (step1 document raw1).map (fun t =>
    let secs := step2children t (o2 t)
    if secs.isEmpty then
      (t, (step3children t (o3 t)).map (fun a => (a, [])))
    else
      (t, secs.map (fun s => (s, step3children s (o3 s)))))

/-- Every unit produced by the pipeline, at every nesting depth. -/
def allUnits (tr : List (UNode × List (UNode × List UNode))) : List UNode :=
  (tr.map (fun t => t.1 :: (t.2.map (fun s => s.1 :: s.2)).flatten)).flatten

/-! ## The validation gate of `_extract_structure_gemini`
(document_processor_openai.py 126-160) -/

/-- A parsed JSON candidate: any of the required fields may be missing. -/
structure RawX where
  rtype : Option (List Char)
  rtitle : Option (List Char)
  rstart : Option Int
deriving Repr, DecidableEq

/-- A validated node (`type` remapped, `global_start` attached). -/
structure VNode where
  vtype : List Char
  vtitle : List Char
  vstart : Int
  vglobal : Int
deriving Repr, DecidableEq

/-- `TYPE_MAPPING.get(t, t)` (document_processor_openai.py 17-20). -/
def TYPE_MAPPING (t : List Char) : List Char :=
  if t = "ภาค".data then "book".data
  else if t = "ลักษณะ".data then "part".data
  else if t = "หมวด".data then "chapter".data
  else if t = "ส่วน".data then "section".data
  else if t = "มาตรา".data then "article".data
  else t

/-- The three checks of the "Trust but Verify" gate, on a candidate that
has all of `type`, `title`, `start_index`: bounds
(`0 <= start < len(chunk)`), line start (`start == 0` or the previous
character is a newline), and stripped-title match against the chunk text
at `[start, start + len(title))`.  A candidate missing a field fails. -/
def rawPasses (chunk : List Char) (r : RawX) : Bool :=
  match r.rtype, r.rtitle, r.rstart with
  | some _, some ti, some st =>
    decide (0 ≤ st) && decide (st < (chunk.length : Int))
      && (st == 0 || chunk.getD (st.toNat - 1) ' ' == '\n')
      && pyStrip ((chunk.drop st.toNat).take ti.length) == pyStrip ti
  | _, _, _ => false

/-- The record appended to `validated_nodes` for a passing candidate:
`node['type'] = TYPE_MAPPING.get(...)`, `node['global_start'] =
node['start_index'] + global_offset` (only ever applied to passing
candidates; the catch-all arm is unreachable under the filter). -/
def mkVNode (off : Nat) (r : RawX) : VNode :=
  match r.rtype, r.rtitle, r.rstart with
  | some ty, some ti, some st => ⟨TYPE_MAPPING ty, ti, st, st + (off : Int)⟩
  | _, _, _ => ⟨[], [], 0, 0⟩

/-- The validation loop (lines 126-160): walk the parsed candidates in
order, keep exactly those passing every check, transformed by `mkVNode`
(the Python `continue`s for the individual checks are the conjuncts of
`rawPasses`; rejected candidates go only to `debug_info`). -/
def validated_nodes (chunk : List Char) (off : Nat) : List RawX → List VNode
  | [] => []
  | r :: rest =>
    if rawPasses chunk r then mkVNode off r :: validated_nodes chunk off rest
    else validated_nodes chunk off rest

/-! ## Tree builder: `build_tree` (document_processor.py 52-105)

The Python code mutates dicts through aliases: a node is appended to its
parent's `children` list when processed and receives its own children
later through the shared reference.  The functional model keeps a stack of
open frames and attaches each node's *completed* subtree when the node is
popped (or, for non-parent nodes, immediately); since everything processed
between a child and its pop trigger is a descendant of that child, the
children lists agree with the Python ones, element for element and in
order.  The `hierarchy` dict assigns `level = hierarchy.get(type, 5)`, a
pure function of the type, so the scratch `level` key is modelled by
`levelOf` instead of a stored field (the key is deleted again in
`finalize_structure`). -/

structure BNode where
  ntype : List Char
  title : List Char
  gstart : Nat
  gend : Nat
  btext : List Char
deriving Repr, DecidableEq

/-- The tuple of line 63: `('ภาค', 'ลักษณะ', 'หมวด', 'ส่วน', 'มาตรา')`. -/
def thaiHeaderStarts : List (List Char) :=
  ["ภาค".data, "ลักษณะ".data, "หมวด".data, "ส่วน".data, "มาตรา".data]

/-- Line 63: keep a node iff its title starts with a Thai header word or
its type is `preamble`. -/
def passesFilter (n : BNode) : Bool :=
  thaiHeaderStarts.any (fun p => p.isPrefixOf n.title) || n.ntype == "preamble".data

/-- Lines 64-65: preamble nodes get the title `"Preamble"`. -/
def cleanNode (n : BNode) : BNode :=
  if n.ntype == "preamble".data then { n with title := "Preamble".data } else n

/-- Lines 59-67: the cleaned list actually fed to the stack algorithm. -/
def cleanedList (l : List BNode) : List BNode :=
  (l.filter passesFilter).map cleanNode

/-- `hierarchy = {"book": 0, "part": 1, "chapter": 2, "section": 3,
"article": 4, "preamble": 5}` with default 5 (line 56 and 66). -/
def levelOf (ty : List Char) : Nat :=
  if ty = "book".data then 0
  else if ty = "part".data then 1
  else if ty = "chapter".data then 2
  else if ty = "section".data then 3
  else if ty = "article".data then 4
  else 5

/-- The intermediate tree (a node dict with its `children` list). -/
inductive PTree : Type where
  | node : BNode → List PTree → PTree

def rootInfo : PTree → BNode
  | .node i _ => i

def rootChildren : PTree → List PTree
  | .node _ cs => cs

/-- An open stack entry: a node still waiting for children.  The Python
root sentinel (`level = -1`, never popped since every real level is
`≥ 0`) is the empty frame list together with `rootCh`, the completed
top-level trees. -/
structure BFrame where
  finfo : BNode
  fchildren : List PTree

/-- The inner worker of the pop loop: `t` is the completed subtree of the
frame just popped, to be appended to the children of the next frame down
(or to the root when no frame is left); if that next frame's level is
still `≥ lvl` it is popped in turn. -/
def popAttach (lvl : Nat) : List BFrame → List PTree → PTree →
    List BFrame × List PTree
  | [], rootCh, t => ([], rootCh ++ [t])
  | g :: gs, rootCh, t =>
    if lvl ≤ levelOf g.finfo.ntype then
      popAttach lvl gs rootCh (PTree.node g.finfo (g.fchildren ++ [t]))
    else (⟨g.finfo, g.fchildren ++ [t]⟩ :: gs, rootCh)

/-- Lines 73-74: pop while the top's level is `≥ lvl`, attaching each
popped node's completed subtree to the frame below it (or to the root). -/
def popGE (lvl : Nat) (frames : List BFrame) (rootCh : List PTree) :
    List BFrame × List PTree :=
  match frames with
  | [] => ([], rootCh)
  | f :: fs =>
    if lvl ≤ levelOf f.finfo.ntype then
      popAttach lvl fs rootCh (PTree.node f.finfo f.fchildren)
    else (f :: fs, rootCh)

/-- Lines 72-82, one node: pop, then either open a frame (`level < 4`,
the node can become a parent) or attach the node as a completed leaf. -/
def treeStep (s : List BFrame × List PTree) (n : BNode) : List BFrame × List PTree :=
  if levelOf n.ntype < 4 then
    (⟨n, []⟩ :: (popGE (levelOf n.ntype) s.1 s.2).1,
      (popGE (levelOf n.ntype) s.1 s.2).2)
  else
    match popGE (levelOf n.ntype) s.1 s.2 with
    | ([], rc) => ([], rc ++ [PTree.node n []])
    | (g :: gs, rc) => (⟨g.finfo, g.fchildren ++ [PTree.node n []]⟩ :: gs, rc)

/-- End of the loop: the still-open frames close from the top down (in the
Python original the children lists are already shared by reference, so
this closing is implicit there). -/
def flushAttach : List BFrame → List PTree → PTree → List PTree
  | [], rootCh, t => rootCh ++ [t]
  | g :: gs, rootCh, t => flushAttach gs rootCh (PTree.node g.finfo (g.fchildren ++ [t]))

def flushFrames (frames : List BFrame) (rootCh : List PTree) : List PTree :=
  match frames with
  | [] => rootCh
  | f :: fs => flushAttach fs rootCh (PTree.node f.finfo f.fchildren)

/-- Lines 69-82: the stack pass over the cleaned list. -/
def buildForest (l : List BNode) : List PTree :=
  flushFrames (l.foldl treeStep ([], [])).1 (l.foldl treeStep ([], [])).2

/-- A finalized node (`finalize_structure`, lines 85-100): the temporary
keys are gone and `children` has been split into `sections` (level `< 4`)
and `articles` (level `≥ 4`); `summary` is added later by the summarizer
(`none` = key absent, and an absent `sections`/`articles` key is the empty
list). -/
inductive FTree : Type where
  | mk : BNode → Option (List Char) → List FTree → List FTree → FTree

def FTree.info : FTree → BNode
  | .mk i _ _ _ => i

def FTree.fsummary : FTree → Option (List Char)
  | .mk _ s _ _ => s

def FTree.sections : FTree → List FTree
  | .mk _ _ s _ => s

def FTree.articles : FTree → List FTree
  | .mk _ _ _ a => a

/-- An article entry: `finalize_structure` is not called on articles, and
no article ever acquired children (level `≥ 4` nodes are never pushed). -/
def articleShell (t : PTree) : FTree := FTree.mk (rootInfo t) none [] []

mutual

/-- `finalize_structure` (lines 85-100): split children by level
(`sections` are the children with level `< 4`, `articles` those with level
`≥ 4`), and recurse into the sections only — `finalizeSecs` is the
`for section in node["sections"]: finalize_structure(section)` loop. -/
def finalizeT : PTree → FTree
  | .node i cs =>
    FTree.mk i none (finalizeSecs cs)
      ((cs.filter (fun c => 4 ≤ levelOf (rootInfo c).ntype)).map articleShell)

def finalizeSecs : List PTree → List FTree
  | [] => []
  | c :: cs =>
    (if levelOf (rootInfo c).ntype < 4 then [finalizeT c] else []) ++ finalizeSecs cs

end

/-- `build_tree(flat_list)` (lines 52-105). -/
def build_tree (flat : List BNode) : List FTree :=
  (buildForest (cleanedList flat)).map finalizeT

mutual

/-- Every node of a finalized tree (the tree itself and all descendants
through `sections` and `articles`). -/
def allFT : FTree → List FTree
  | .mk i s secs arts =>
    FTree.mk i s secs arts :: (allFTList secs ++ allFTList arts)

def allFTList : List FTree → List FTree
  | [] => []
  | t :: ts => allFT t ++ allFTList ts

end

/-- Boolean subsequence test (is `l` an in-order selection from `r`?). -/
def isSubseqOf : List BNode → List BNode → Bool
  | [], _ => true
  | _ :: _, [] => false
  | a :: as, b :: bs => if a == b then isSubseqOf as bs else isSubseqOf (a :: as) bs

/-- The output sibling sequence of a finalized node, in serialized order:
the `sections` list followed by the `articles` list. -/
def siblingInfos (t : FTree) : List BNode :=
  t.sections.map FTree.info ++ t.articles.map FTree.info

/-! ## Recursive summarizer: `summarize_nodes_recursively`
(document_processor.py 108-147)

The summarization service (`model.generate_content` followed by
`.text.strip()`) is abstracted as `svc : List Char → Option (List Char)`:
`some raw` is a successful call whose stripped text becomes the summary,
`none` is a call that raises, caught by the `except` arm, which stores the
placeholder `"요약 생성 실패"`. -/

def placeholderSummary : List Char := "요약 생성 실패".data

/-- One guarded service call: `try ... except` of lines 123-127 / 143-147. -/
def callSummary (svc : List Char → Option (List Char)) (prompt : List Char) :
    List Char :=
  match svc prompt with
  | some raw => pyStrip raw
  | none => placeholderSummary

/-- The article prompt f-string of line 122. -/
def articlePrompt (gsum : List Char) (a : BNode) : List Char :=
  "Based on the global summary '".data ++ gsum
    ++ "', please summarize the following article '".data ++ a.title
    ++ "' in one sentence in Korean.\n\nText:\n".data ++ a.btext

/-- A `"- {title}: {summary}"` line (lines 133 and 135); a missing
summary renders as the empty string (`s.get('summary', '')`). -/
def childLine (t : FTree) : List Char :=
  "- ".data ++ t.info.title ++ ": ".data ++ t.fsummary.getD []

/-- `"\n".join(...)`. -/
def joinNL : List (List Char) → List Char
  | [] => []
  | [x] => x
  | x :: y :: rest => x ++ "\n".data ++ joinNL (y :: rest)

/-- Lines 131-135: the section lines then the article lines (the two
`+=` blocks concatenate the joined groups without a separator; a missing
key contributes the empty join, so the guards are immaterial). -/
def childSummaries (secs arts : List FTree) : List Char :=
  joinNL (secs.map childLine) ++ joinNL (arts.map childLine)

/-- Lines 138-139: truncate over-long child summaries at 30000 chars. -/
def boundedChildSummaries (cs : List Char) : List Char :=
  if 30000 < cs.length then
    cs.take 30000 ++ "\n... (요약 내용이 너무 길어 생략)".data
  else cs

/-- The parent-synthesis prompt f-string of line 142. -/
def parentPrompt (gsum title cs : List Char) : List Char :=
  "Based on the global summary '".data ++ gsum
    ++ "', please synthesize the following summaries of child nodes into a comprehensive summary for the parent node '".data
    ++ title ++ "' in Korean.\n\nChild Summaries:\n".data ++ cs

mutual

/-- `summarize_nodes_recursively(node, model, global_summary, ...)`
(lines 108-147): recurse into the sections, give every article of this
node a summary, and set this node's own summary iff it has a `sections` or
`articles` key; a node with neither key is returned untouched.  The
children summaries feeding the parent prompt are the already-summarized
ones, as in the Python mutation order. -/
def summarizeF (svc : List Char → Option (List Char)) (gsum : List Char) :
    FTree → FTree
  | .mk i s secs arts =>
    if secs.isEmpty && arts.isEmpty then FTree.mk i s secs arts
    else
      FTree.mk i
        (some (callSummary svc (parentPrompt gsum i.title
          (boundedChildSummaries (childSummaries (summarizeList svc gsum secs)
            (arts.map (fun a => FTree.mk a.info
              (some (callSummary svc (articlePrompt gsum a.info)))
              a.sections a.articles)))))))
        (summarizeList svc gsum secs)
        (arts.map (fun a => FTree.mk a.info
          (some (callSummary svc (articlePrompt gsum a.info)))
          a.sections a.articles))

/-- The `for section in node["sections"]` recursion of lines 115-117. -/
def summarizeList (svc : List Char → Option (List Char)) (gsum : List Char) :
    List FTree → List FTree
  | [] => []
  | t :: ts => summarizeF svc gsum t :: summarizeList svc gsum ts

end

/-! ## Traversals and invariants used to state and prove the tree claims -/

mutual

/-- Preorder listing of a tree's node records (document order). -/
def preorderT : PTree → List BNode
  | .node i cs => i :: preorderF cs

/-- Preorder listing of a forest. -/
def preorderF : List PTree → List BNode
  | [] => []
  | t :: ts => preorderT t ++ preorderF ts

end

mutual

/-- Every subtree of a tree (the node itself and all descendants). -/
def allPT : PTree → List PTree
  | .node i cs => PTree.node i cs :: allPTF cs

/-- Every subtree of a forest. -/
def allPTF : List PTree → List PTree
  | [] => []
  | t :: ts => allPT t ++ allPTF ts

end

/-- The trace of a stack state: the completed root trees, then each open
frame from the bottom of the stack up, its own node followed by its
completed children.  One step of the builder appends exactly the processed
node to this trace, so the final forest's preorder is the input list. -/
def stackTrace (frames : List BFrame) (rootCh : List PTree) : List BNode :=
  preorderF rootCh
    ++ (frames.reverse.map (fun f => f.finfo :: preorderF f.fchildren)).flatten

/-- The tree-builder level invariant: every child's level is strictly
greater than its parent's. -/
inductive WFT : PTree → Prop where
  | node : ∀ (i : BNode) (cs : List PTree),
      (∀ c ∈ cs, levelOf i.ntype < levelOf (rootInfo c).ntype) →
      (∀ c, c ∈ cs → WFT c) →
      WFT (PTree.node i cs)

/-- Stack levels are strictly decreasing from the top down (the Python
root sentinel's `-1` is below every real level). -/
def framesOrdered (frames : List BFrame) : Prop :=
  List.Pairwise (fun f g => levelOf g.finfo.ntype < levelOf f.finfo.ntype) frames

/-- The full stack invariant: ordered levels, every completed child hangs
below a strictly smaller level and is itself well-formed, and every
completed root tree is well-formed. -/
def stWF (frames : List BFrame) (rootCh : List PTree) : Prop :=
  framesOrdered frames
  ∧ (∀ f ∈ frames, ∀ c ∈ f.fchildren,
      levelOf f.finfo.ntype < levelOf (rootInfo c).ntype ∧ WFT c)
  ∧ (∀ t ∈ rootCh, WFT t)

/-- Strict `global_start` order on raw nodes. -/
def gsLT (a b : RNode) : Prop := a.global_start < b.global_start

/-- Strict `global_start` order on resolved units. -/
def ugsLT (a b : UNode) : Prop := a.global_start < b.global_start

/-- Strict `global_start` order on `run_final_pipeline` candidates. -/
def hgsLT (a b : HNode) : Prop := a.global_start < b.global_start

/-- Strict `global_start` order on resolved final headers. -/
def hugsLT (a b : HUnit) : Prop := a.global_start < b.global_start

/-! # Theorems -/

/-! ## Dictionary deduplication and sorting -/

theorem map_gs_dictInsert (acc : List RNode) (n : RNode) :
    (dictInsert acc n).map (fun m => m.global_start)
      = if acc.any (fun m => m.global_start == n.global_start)
        then acc.map (fun m => m.global_start)
        else acc.map (fun m => m.global_start) ++ [n.global_start] := by
  unfold dictInsert
  split
  · rw [List.map_map]
    apply List.map_congr_left
    intro m _
    by_cases h : m.global_start = n.global_start <;> simp [h]
  · simp

theorem keysNodup_foldl_dictInsert (l : List RNode) :
    ∀ acc : List RNode, (acc.map (fun m => m.global_start)).Nodup →
      ((l.foldl dictInsert acc).map (fun m => m.global_start)).Nodup := by
  induction l with
  | nil => intro acc h; simpa using h
  | cons x xs ih =>
    intro acc hacc
    rw [List.foldl_cons]
    apply ih
    rw [map_gs_dictInsert]
    split
    · exact hacc
    · rename_i hany
      simp only [List.any_eq_true, beq_iff_eq, not_exists, not_and] at hany
      refine List.Nodup.append hacc (by simp) ?_
      intro a ha hax
      rcases List.mem_map.mp ha with ⟨m, hm, rfl⟩
      rw [List.mem_singleton] at hax
      exact hany m hm hax

theorem keysNodup_dictValues (l : List RNode) :
    ((dictValues l).map (fun m => m.global_start)).Nodup :=
  keysNodup_foldl_dictInsert l [] (by simp)

theorem mem_dictInsert {m : RNode} {acc : List RNode} {n : RNode}
    (h : m ∈ dictInsert acc n) : m ∈ acc ∨ m = n := by
  unfold dictInsert at h
  split at h
  · rcases List.mem_map.mp h with ⟨a, ha, hne⟩
    by_cases hk : a.global_start = n.global_start <;> simp [hk] at hne
    · exact Or.inr hne.symm
    · exact Or.inl (hne ▸ ha)
  · rcases List.mem_append.mp h with h' | h'
    · exact Or.inl h'
    · exact Or.inr (List.mem_singleton.mp h')

theorem mem_foldl_dictInsert (l : List RNode) :
    ∀ acc {m : RNode}, m ∈ l.foldl dictInsert acc → m ∈ acc ∨ m ∈ l := by
  induction l with
  | nil => intro acc m h; exact Or.inl (by simpa using h)
  | cons x xs ih =>
    intro acc m h
    rw [List.foldl_cons] at h
    rcases ih (dictInsert acc x) h with h' | h'
    · rcases mem_dictInsert h' with h'' | h''
      · exact Or.inl h''
      · exact Or.inr (h'' ▸ List.mem_cons_self x xs)
    · exact Or.inr (List.mem_cons_of_mem x h')

theorem mem_of_mem_dictValues {l : List RNode} {m : RNode}
    (h : m ∈ dictValues l) : m ∈ l := by
  rcases mem_foldl_dictInsert l [] h with h' | h'
  · simp at h'
  · exact h'

theorem key_mem_dictInsert (acc : List RNode) (n : RNode) (k : Nat) :
    k ∈ (dictInsert acc n).map (fun m => m.global_start)
      ↔ k ∈ acc.map (fun m => m.global_start) ∨ k = n.global_start := by
  rw [map_gs_dictInsert]
  split
  · rename_i hany
    simp only [List.any_eq_true, beq_iff_eq] at hany
    rcases hany with ⟨m, hm, hkey⟩
    constructor
    · exact fun h => Or.inl h
    · rintro (h | rfl)
      · exact h
      · exact hkey ▸ List.mem_map_of_mem _ hm
  · simp

theorem key_mem_foldl_dictInsert (l : List RNode) :
    ∀ acc (k : Nat), k ∈ (l.foldl dictInsert acc).map (fun m => m.global_start)
      ↔ k ∈ acc.map (fun m => m.global_start)
        ∨ k ∈ l.map (fun m => m.global_start) := by
  induction l with
  | nil => intro acc k; simp
  | cons x xs ih =>
    intro acc k
    rw [List.foldl_cons, ih, key_mem_dictInsert]
    simp only [List.map_cons, List.mem_cons]
    tauto

theorem key_mem_dictValues (l : List RNode) (k : Nat) :
    k ∈ (dictValues l).map (fun m => m.global_start)
      ↔ k ∈ l.map (fun m => m.global_start) := by
  unfold dictValues
  rw [key_mem_foldl_dictInsert]
  simp

theorem dictInsert_ne_nil (acc : List RNode) (n : RNode) : dictInsert acc n ≠ [] := by
  unfold dictInsert
  split
  · rename_i hany
    rcases List.any_eq_true.mp hany with ⟨m, hm, _⟩
    cases acc with
    | nil => simp at hm
    | cons a as => simp
  · simp

theorem foldl_dictInsert_ne_nil (l : List RNode) :
    ∀ acc, acc ≠ [] ∨ l ≠ [] → l.foldl dictInsert acc ≠ [] := by
  induction l with
  | nil =>
    intro acc h
    rcases h with h | h
    · simpa using h
    · simp at h
  | cons x xs ih =>
    intro acc _
    rw [List.foldl_cons]
    exact ih (dictInsert acc x) (Or.inl (dictInsert_ne_nil acc x))

theorem reconcile_perm (l : List RNode) : (reconcile l).Perm (dictValues l) :=
  List.perm_insertionSort gsLE (dictValues l)

theorem reconcile_sorted (l : List RNode) : List.Sorted gsLE (reconcile l) :=
  List.sorted_insertionSort gsLE (dictValues l)

theorem keysNodup_reconcile (l : List RNode) :
    ((reconcile l).map (fun m => m.global_start)).Nodup :=
  (((reconcile_perm l).map (fun m => m.global_start)).nodup_iff).mpr
    (keysNodup_dictValues l)

theorem reconcile_sortedLT (l : List RNode) : List.Sorted gsLT (reconcile l) := by
  have h1 : List.Pairwise gsLE (reconcile l) := reconcile_sorted l
  have h2 : List.Pairwise (fun a b : RNode => a.global_start ≠ b.global_start)
      (reconcile l) := List.pairwise_map.mp (keysNodup_reconcile l)
  exact (h1.and h2).imp (fun h => Nat.lt_of_le_of_ne h.1 h.2)

theorem mem_of_mem_reconcile {l : List RNode} {m : RNode}
    (h : m ∈ reconcile l) : m ∈ l :=
  mem_of_mem_dictValues ((reconcile_perm l).mem_iff.mp h)

theorem reconcile_ne_nil {l : List RNode} (h : l ≠ []) : reconcile l ≠ [] := by
  intro hc
  have h1 : dictValues l ≠ [] := foldl_dictInsert_ne_nil l [] (Or.inr h)
  have h2 := reconcile_perm l
  rw [hc] at h2
  exact h1 h2.symm.eq_nil

theorem key_mem_reconcile (l : List RNode) (k : Nat) :
    k ∈ (reconcile l).map (fun m => m.global_start)
      ↔ k ∈ l.map (fun m => m.global_start) := by
  exact (((reconcile_perm l).map (fun m => m.global_start)).mem_iff).trans
    (key_mem_dictValues l k)

/-! ## `chainEnds` structure -/

theorem chainEnds_map_fst (pend : Nat) :
    ∀ l : List RNode, (chainEnds pend l).map Prod.fst = l
  | [] => rfl
  | [x] => rfl
  | x :: y :: rest => by
    rw [chainEnds, List.map_cons, chainEnds_map_fst pend (y :: rest)]

theorem chainEnds_chain (pend : Nat) :
    ∀ l : List RNode,
      List.Chain' (fun p q : RNode × Nat => p.2 = q.1.global_start) (chainEnds pend l)
  | [] => List.chain'_nil
  | [x] => List.chain'_singleton _
  | x :: y :: rest => by
    rw [chainEnds]
    refine List.chain'_cons'.mpr ⟨?_, chainEnds_chain pend (y :: rest)⟩
    intro q hq
    have hfst : (chainEnds pend (y :: rest)).head?.map Prod.fst = some y := by
      cases rest with
      | nil => rfl
      | cons z zs => rfl
    cases hhd : (chainEnds pend (y :: rest)).head? with
    | none => rw [hhd] at hq; cases hq
    | some q2 =>
      rw [hhd] at hq hfst
      have hqq : q = q2 := by
        have := hq
        simp at this
        exact this.symm
      have hy : q2.1 = y := by
        have := congrArg (fun o => Option.getD o q2.1) hfst
        simpa using this
      rw [hqq, hy]

theorem getLast?_cons_ne {α : Type} (a : α) {l : List α} (h : l ≠ []) :
    (a :: l).getLast? = l.getLast? := by
  cases l with
  | nil => exact absurd rfl h
  | cons b bs => simp [List.getLast?_cons_cons]

theorem chainEnds_ne_nil (pend : Nat) :
    ∀ {l : List RNode}, l ≠ [] → chainEnds pend l ≠ []
  | [], h => absurd rfl h
  | [x], _ => by simp [chainEnds]
  | x :: y :: rest, _ => by simp [chainEnds]

theorem chainEnds_getLast? (pend : Nat) :
    ∀ l : List RNode, l ≠ [] →
      ((chainEnds pend l).getLast?).map Prod.snd = some pend
  | [], h => absurd rfl h
  | [x], _ => rfl
  | x :: y :: rest, _ => by
    rw [chainEnds, getLast?_cons_ne _ (chainEnds_ne_nil pend (by simp))]
    exact chainEnds_getLast? pend (y :: rest) (by simp)

theorem chainEnds_facts (pend : Nat) :
    ∀ l : List RNode, List.Sorted gsLT l → ∀ p ∈ chainEnds pend l,
      p.1 ∈ l ∧ (p.2 = pend
        ∨ ∃ y ∈ l, p.2 = y.global_start ∧ p.1.global_start < y.global_start)
  | [], _, p, hp => by cases hp
  | [x], _, p, hp => by
    rw [chainEnds] at hp
    rcases List.mem_singleton.mp hp with rfl
    exact ⟨List.mem_singleton.mpr rfl, Or.inl rfl⟩
  | x :: y :: rest, hs, p, hp => by
    rw [chainEnds] at hp
    rcases List.mem_cons.mp hp with rfl | hp'
    · refine ⟨List.mem_cons_self _ _,
        Or.inr ⟨y, List.mem_cons_of_mem _ (List.mem_cons_self _ _), rfl, ?_⟩⟩
      exact List.rel_of_sorted_cons hs y (List.mem_cons_self _ _)
    · rcases chainEnds_facts pend (y :: rest) hs.of_cons p hp' with ⟨h1, h2⟩
      refine ⟨List.mem_cons_of_mem _ h1, ?_⟩
      rcases h2 with h2 | ⟨z, hz, h3⟩
      · exact Or.inl h2
      · exact Or.inr ⟨z, List.mem_cons_of_mem _ hz, h3⟩

/-! ## `postprocess_nodes` invariants -/

/-- The scope bound satisfied by every node that survives the filter. -/
theorem mem_uniq_bounds {nodes : List RNode} {ptext : List Char} {off : Nat}
    {m : RNode}
    (hm : m ∈ reconcile (nodes.filter
      (fun n => off ≤ n.global_start && n.global_start < off + ptext.length))) :
    off ≤ m.global_start ∧ m.global_start < off + ptext.length := by
  have := List.mem_filter.mp (mem_of_mem_reconcile hm)
  simpa using this.2

theorem postprocess_sorted (nodes : List RNode) (ptext : List Char) (off : Nat) :
    List.Sorted ugsLT (postprocess_nodes nodes ptext off) := by
  unfold postprocess_nodes
  rw [List.Sorted, List.pairwise_map]
  have h1 : List.Sorted gsLT (reconcile (nodes.filter
      (fun n => off ≤ n.global_start && n.global_start < off + ptext.length))) :=
    reconcile_sortedLT _
  have h2 := chainEnds_map_fst (off + ptext.length) (reconcile (nodes.filter
      (fun n => off ≤ n.global_start && n.global_start < off + ptext.length)))
  rw [List.Sorted, ← h2, List.pairwise_map] at h1
  exact h1

theorem postprocess_chain (nodes : List RNode) (ptext : List Char) (off : Nat) :
    List.Chain' (fun u v : UNode => u.global_end = v.global_start)
      (postprocess_nodes nodes ptext off) := by
  unfold postprocess_nodes
  rw [List.chain'_map]
  exact chainEnds_chain _ _

theorem postprocess_last_end (nodes : List RNode) (ptext : List Char) (off : Nat)
    (h : postprocess_nodes nodes ptext off ≠ []) :
    ((postprocess_nodes nodes ptext off).getLast?).map (fun u => u.global_end)
      = some (off + ptext.length) := by
  unfold postprocess_nodes at *
  rw [List.getLast?_map]
  have hne : reconcile (nodes.filter (fun n =>
      off ≤ n.global_start && n.global_start < off + ptext.length)) ≠ [] := by
    intro hc
    rw [hc] at h
    exact h rfl
  have hch := chainEnds_getLast? (off + ptext.length) _ hne
  cases hlast : (chainEnds (off + ptext.length) (reconcile (nodes.filter (fun n =>
      off ≤ n.global_start && n.global_start < off + ptext.length)))).getLast? with
  | none => rw [hlast] at hch; cases hch
  | some p =>
    rw [hlast] at hch
    have : p.2 = off + ptext.length := by
      have := congrArg (fun o => Option.getD o p.2) hch
      simpa using this
    simp [this]

theorem postprocess_mem (nodes : List RNode) (ptext : List Char) (off : Nat)
    {u : UNode} (hu : u ∈ postprocess_nodes nodes ptext off) :
    off ≤ u.global_start ∧ u.global_start < u.global_end
      ∧ u.global_end ≤ off + ptext.length
      ∧ u.utext = pySlice ptext (u.global_start - off) (u.global_end - off) := by
  unfold postprocess_nodes at hu
  rcases List.mem_map.mp hu with ⟨p, hp, rfl⟩
  have hsorted : List.Sorted gsLT (reconcile (nodes.filter (fun n =>
      off ≤ n.global_start && n.global_start < off + ptext.length))) :=
    reconcile_sortedLT _
  rcases chainEnds_facts (off + ptext.length) _ hsorted p hp with ⟨h1, h2⟩
  have hb := mem_uniq_bounds h1
  refine ⟨hb.1, ?_, ?_, rfl⟩
  · rcases h2 with h2 | ⟨y, _, hy2, hlt⟩
    · simpa [h2] using hb.2
    · rw [hy2]; exact hlt
  · rcases h2 with h2 | ⟨y, hy, hy2, _⟩
    · simp [h2]
    · rw [hy2]; exact Nat.le_of_lt (mem_uniq_bounds hy).2

/-! ## Slice composition -/

theorem pySlice_zero_length (l : List Char) : pySlice l 0 l.length = l := by
  simp [pySlice]

theorem take_length_take (n : Nat) (s : List Char) :
    s.take ((s.take n).length) = s.take n :=
  (List.prefix_iff_eq_take.mp (List.take_prefix n s)).symm

theorem pySlice_self_extend (doc : List Char) (a b : Nat) :
    pySlice doc a (a + (pySlice doc a b).length) = pySlice doc a b := by
  unfold pySlice
  rw [Nat.add_sub_cancel_left]
  exact take_length_take (b - a) (doc.drop a)

/-- Slicing an already-sliced parent at scope-local offsets equals slicing
the authoritative document at global offsets. -/
theorem pySlice_nest (doc ptext : List Char) (off a b : Nat)
    (hpt : ptext = pySlice doc off (off + ptext.length))
    (ha : off ≤ a) (hab : a ≤ b) (hb : b ≤ off + ptext.length) :
    pySlice ptext (a - off) (b - off) = pySlice doc a b := by
  have hba : b - off - (a - off) = b - a := by omega
  unfold pySlice at hpt ⊢
  rw [hba]
  rw [Nat.add_sub_cancel_left] at hpt
  conv_lhs => rw [hpt]
  rw [List.drop_take, List.drop_drop, Nat.add_sub_cancel' ha, List.take_take]
  congr 1
  have hle : b - a ≤ ptext.length - (a - off) := by omega
  exact min_eq_left hle

theorem postprocess_text_abs (doc : List Char) (nodes : List RNode)
    (ptext : List Char) (off : Nat)
    (hpt : ptext = pySlice doc off (off + ptext.length)) :
    ∀ u ∈ postprocess_nodes nodes ptext off,
      u.utext = pySlice doc u.global_start u.global_end := by
  intro u hu
  rcases postprocess_mem nodes ptext off hu with ⟨h1, h2, h3, h4⟩
  rw [h4]
  exact pySlice_nest doc ptext off _ _ hpt h1 (Nat.le_of_lt h2) h3

/-- A unit's text is itself a document slice of its own length starting at
its `global_start` (the form needed to recurse into a child scope). -/
theorem unit_text_self_slice (doc : List Char) (u : UNode)
    (h : u.utext = pySlice doc u.global_start u.global_end) :
    u.utext = pySlice doc u.global_start (u.global_start + u.utext.length) := by
  conv_lhs => rw [h]
  rw [h, pySlice_self_extend]

/-! ## Scope heads -/

theorem postprocess_head_gs (nodes : List RNode) (ptext : List Char) (off : Nat)
    (hkey : ∃ n ∈ nodes, n.global_start = off) (hne : ptext.length ≠ 0) :
    ((postprocess_nodes nodes ptext off).head?).map (fun u => u.global_start)
      = some off := by
  rcases hkey with ⟨n, hn, hgs⟩
  have hfil : n ∈ nodes.filter (fun m =>
      off ≤ m.global_start && m.global_start < off + ptext.length) := by
    rw [List.mem_filter]
    refine ⟨hn, ?_⟩
    simp only [hgs, Bool.and_eq_true, decide_eq_true_eq]
    omega
  have hkeyr : off ∈ (reconcile (nodes.filter (fun m =>
      off ≤ m.global_start && m.global_start < off + ptext.length))).map
        (fun m => m.global_start) := by
    rw [key_mem_reconcile]
    exact List.mem_map.mpr ⟨n, hfil, hgs⟩
  rcases List.mem_map.mp hkeyr with ⟨m, hm, hmk⟩
  cases hru : reconcile (nodes.filter (fun m =>
      off ≤ m.global_start && m.global_start < off + ptext.length)) with
  | nil => rw [hru] at hm; cases hm
  | cons r rest =>
    have hsorted : List.Sorted gsLE (r :: rest) := hru ▸ reconcile_sorted _
    have hmin : r.global_start ≤ off := by
      rw [hru] at hm
      rcases List.mem_cons.mp hm with rfl | hm'
      · exact Nat.le_of_eq hmk
      · exact hmk ▸ List.rel_of_sorted_cons hsorted m hm'
    have hrb : off ≤ r.global_start := by
      have : r ∈ reconcile (nodes.filter (fun m =>
          off ≤ m.global_start && m.global_start < off + ptext.length)) := by
        rw [hru]; exact List.mem_cons_self _ _
      exact (mem_uniq_bounds this).1
    have hreq : r.global_start = off := Nat.le_antisymm hmin hrb
    unfold postprocess_nodes
    rw [List.head?_map, hru]
    cases rest with
    | nil => simpa [chainEnds] using hreq
    | cons r2 rs => simpa [chainEnds] using hreq

/-! ## `chainEnds` heads -/

theorem chainEnds_head?_fst (pend : Nat) : ∀ l : List RNode,
    ((chainEnds pend l).head?).map Prod.fst = l.head?
  | [] => rfl
  | [_] => rfl
  | _ :: _ :: _ => rfl

/-! ## `run_final_pipeline` reconciliation over unvalidated `Int` offsets -/

theorem map_gs_dictInsertH (acc : List HNode) (n : HNode) :
    (dictInsertH acc n).map (fun m => m.global_start)
      = if acc.any (fun m => m.global_start == n.global_start)
        then acc.map (fun m => m.global_start)
        else acc.map (fun m => m.global_start) ++ [n.global_start] := by
  unfold dictInsertH
  split
  · rw [List.map_map]
    apply List.map_congr_left
    intro m _
    by_cases h : m.global_start = n.global_start <;> simp [h]
  · simp

theorem keysNodup_foldl_dictInsertH (l : List HNode) :
    ∀ acc : List HNode, (acc.map (fun m => m.global_start)).Nodup →
      ((l.foldl dictInsertH acc).map (fun m => m.global_start)).Nodup := by
  induction l with
  | nil => intro acc h; simpa using h
  | cons x xs ih =>
    intro acc hacc
    rw [List.foldl_cons]
    apply ih
    rw [map_gs_dictInsertH]
    split
    · exact hacc
    · rename_i hany
      simp only [List.any_eq_true, beq_iff_eq, not_exists, not_and] at hany
      refine List.Nodup.append hacc (by simp) ?_
      intro a ha hax
      rcases List.mem_map.mp ha with ⟨m, hm, rfl⟩
      rw [List.mem_singleton] at hax
      exact hany m hm hax

theorem keysNodup_dictValuesH (l : List HNode) :
    ((dictValuesH l).map (fun m => m.global_start)).Nodup :=
  keysNodup_foldl_dictInsertH l [] (by simp)

theorem mem_dictInsertH {m : HNode} {acc : List HNode} {n : HNode}
    (h : m ∈ dictInsertH acc n) : m ∈ acc ∨ m = n := by
  unfold dictInsertH at h
  split at h
  · rcases List.mem_map.mp h with ⟨a, ha, hne⟩
    by_cases hk : a.global_start = n.global_start <;> simp [hk] at hne
    · exact Or.inr hne.symm
    · exact Or.inl (hne ▸ ha)
  · rcases List.mem_append.mp h with h' | h'
    · exact Or.inl h'
    · exact Or.inr (List.mem_singleton.mp h')

theorem mem_foldl_dictInsertH (l : List HNode) :
    ∀ acc {m : HNode}, m ∈ l.foldl dictInsertH acc → m ∈ acc ∨ m ∈ l := by
  induction l with
  | nil => intro acc m h; exact Or.inl (by simpa using h)
  | cons x xs ih =>
    intro acc m h
    rw [List.foldl_cons] at h
    rcases ih (dictInsertH acc x) h with h' | h'
    · rcases mem_dictInsertH h' with h'' | h''
      · exact Or.inl h''
      · exact Or.inr (h'' ▸ List.mem_cons_self x xs)
    · exact Or.inr (List.mem_cons_of_mem x h')

theorem mem_of_mem_dictValuesH {l : List HNode} {m : HNode}
    (h : m ∈ dictValuesH l) : m ∈ l := by
  rcases mem_foldl_dictInsertH l [] h with h' | h'
  · simp at h'
  · exact h'

theorem dictInsertH_ne_nil (acc : List HNode) (n : HNode) :
    dictInsertH acc n ≠ [] := by
  unfold dictInsertH
  split
  · rename_i hany
    rcases List.any_eq_true.mp hany with ⟨m, hm, _⟩
    cases acc with
    | nil => simp at hm
    | cons a as => simp
  · simp

theorem foldl_dictInsertH_ne_nil (l : List HNode) :
    ∀ acc, acc ≠ [] ∨ l ≠ [] → l.foldl dictInsertH acc ≠ [] := by
  induction l with
  | nil =>
    intro acc h
    rcases h with h | h
    · simpa using h
    · simp at h
  | cons x xs ih =>
    intro acc _
    rw [List.foldl_cons]
    exact ih (dictInsertH acc x) (Or.inl (dictInsertH_ne_nil acc x))

theorem reconcileH_perm (l : List HNode) : (reconcileH l).Perm (dictValuesH l) :=
  List.perm_insertionSort gsLEH (dictValuesH l)

theorem reconcileH_sorted (l : List HNode) : List.Sorted gsLEH (reconcileH l) :=
  List.sorted_insertionSort gsLEH (dictValuesH l)

theorem keysNodup_reconcileH (l : List HNode) :
    ((reconcileH l).map (fun m => m.global_start)).Nodup :=
  (((reconcileH_perm l).map (fun m => m.global_start)).nodup_iff).mpr
    (keysNodup_dictValuesH l)

theorem reconcileH_sortedLT (l : List HNode) : List.Sorted hgsLT (reconcileH l) := by
  have h1 : List.Pairwise gsLEH (reconcileH l) := reconcileH_sorted l
  have h2 : List.Pairwise (fun a b : HNode => a.global_start ≠ b.global_start)
      (reconcileH l) := List.pairwise_map.mp (keysNodup_reconcileH l)
  exact (h1.and h2).imp (fun h => lt_of_le_of_ne h.1 h.2)

theorem mem_of_mem_reconcileH {l : List HNode} {m : HNode}
    (h : m ∈ reconcileH l) : m ∈ l :=
  mem_of_mem_dictValuesH ((reconcileH_perm l).mem_iff.mp h)

theorem reconcileH_ne_nil {l : List HNode} (h : l ≠ []) : reconcileH l ≠ [] := by
  intro hc
  have h1 : dictValuesH l ≠ [] := foldl_dictInsertH_ne_nil l [] (Or.inr h)
  have h2 := reconcileH_perm l
  rw [hc] at h2
  exact h1 h2.symm.eq_nil

theorem chainEndsH_map_fst (pend : Int) :
    ∀ l : List HNode, (chainEndsH pend l).map Prod.fst = l
  | [] => rfl
  | [x] => rfl
  | x :: y :: rest => by
    rw [chainEndsH, List.map_cons, chainEndsH_map_fst pend (y :: rest)]

theorem chainEndsH_chain (pend : Int) :
    ∀ l : List HNode,
      List.Chain' (fun p q : HNode × Int => p.2 = q.1.global_start)
        (chainEndsH pend l)
  | [] => List.chain'_nil
  | [x] => List.chain'_singleton _
  | x :: y :: rest => by
    rw [chainEndsH]
    refine List.chain'_cons'.mpr ⟨?_, chainEndsH_chain pend (y :: rest)⟩
    intro q hq
    have hfst : (chainEndsH pend (y :: rest)).head?.map Prod.fst = some y := by
      cases rest with
      | nil => rfl
      | cons z zs => rfl
    cases hhd : (chainEndsH pend (y :: rest)).head? with
    | none => rw [hhd] at hq; cases hq
    | some q2 =>
      rw [hhd] at hq hfst
      have hqq : q = q2 := by
        have := hq
        simp at this
        exact this.symm
      have hy : q2.1 = y := by
        have := congrArg (fun o => Option.getD o q2.1) hfst
        simpa using this
      rw [hqq, hy]

theorem chainEndsH_ne_nil (pend : Int) :
    ∀ {l : List HNode}, l ≠ [] → chainEndsH pend l ≠ []
  | [], h => absurd rfl h
  | [x], _ => by simp [chainEndsH]
  | x :: y :: rest, _ => by simp [chainEndsH]

theorem chainEndsH_getLast? (pend : Int) :
    ∀ l : List HNode, l ≠ [] →
      ((chainEndsH pend l).getLast?).map Prod.snd = some pend
  | [], h => absurd rfl h
  | [x], _ => rfl
  | x :: y :: rest, _ => by
    rw [chainEndsH, getLast?_cons_ne _ (chainEndsH_ne_nil pend (by simp))]
    exact chainEndsH_getLast? pend (y :: rest) (by simp)

theorem chainEndsH_facts (pend : Int) :
    ∀ l : List HNode, List.Sorted hgsLT l → ∀ p ∈ chainEndsH pend l,
      p.1 ∈ l ∧ (p.2 = pend
        ∨ ∃ y ∈ l, p.2 = y.global_start ∧ p.1.global_start < y.global_start)
  | [], _, p, hp => by cases hp
  | [x], _, p, hp => by
    rw [chainEndsH] at hp
    rcases List.mem_singleton.mp hp with rfl
    exact ⟨List.mem_singleton.mpr rfl, Or.inl rfl⟩
  | x :: y :: rest, hs, p, hp => by
    rw [chainEndsH] at hp
    rcases List.mem_cons.mp hp with rfl | hp'
    · refine ⟨List.mem_cons_self _ _,
        Or.inr ⟨y, List.mem_cons_of_mem _ (List.mem_cons_self _ _), rfl, ?_⟩⟩
      exact List.rel_of_sorted_cons hs y (List.mem_cons_self _ _)
    · rcases chainEndsH_facts pend (y :: rest) hs.of_cons p hp' with ⟨h1, h2⟩
      refine ⟨List.mem_cons_of_mem _ h1, ?_⟩
      rcases h2 with h2 | ⟨z, hz, h3⟩
      · exact Or.inl h2
      · exact Or.inr ⟨z, List.mem_cons_of_mem _ hz, h3⟩

theorem chainEndsH_head?_fst (pend : Int) : ∀ l : List HNode,
    ((chainEndsH pend l).head?).map Prod.fst = l.head?
  | [] => rfl
  | [_] => rfl
  | _ :: _ :: _ => rfl

/-! ## `run_final_headers` facts -/

theorem insertPreambleFinal_ne_nil {l : List HNode} (h : l ≠ []) :
    insertPreambleFinal l ≠ [] := by
  cases l with
  | nil => exact absurd rfl h
  | cons r rest =>
    simp only [insertPreambleFinal]
    split <;> simp

/-- The inserted preamble only repairs a strictly positive first
`global_start`: the resolved head key is `min first 0`, so an ungated
negative first candidate passes through unchanged. -/
theorem insertPreambleFinal_head_gs : ∀ l : List HNode,
    (insertPreambleFinal l).head?.map (fun m => m.global_start)
      = l.head?.map (fun m => min m.global_start 0)
  | [] => rfl
  | r :: rest => by
    simp only [insertPreambleFinal]
    split
    · rename_i h0
      show some preambleH.global_start = some (min r.global_start 0)
      exact congrArg some (by show (0 : Int) = min r.global_start 0; omega)
    · rename_i h0
      show some r.global_start = some (min r.global_start 0)
      exact congrArg some (by omega)

theorem mem_insertPreambleFinal {l : List HNode} {m : HNode}
    (hm : m ∈ insertPreambleFinal l) : m = preambleH ∨ m ∈ l := by
  cases l with
  | nil => cases hm
  | cons r rest =>
    simp only [insertPreambleFinal] at hm
    split at hm
    · rcases List.mem_cons.mp hm with rfl | hm'
      · exact Or.inl rfl
      · exact Or.inr hm'
    · exact Or.inr hm

theorem insertPreambleFinal_sortedLT {l : List HNode} (h : List.Sorted hgsLT l) :
    List.Sorted hgsLT (insertPreambleFinal l) := by
  cases l with
  | nil => exact h
  | cons r rest =>
    simp only [insertPreambleFinal]
    split
    · rename_i h0
      rw [List.sorted_cons]
      refine ⟨?_, h⟩
      intro b hb
      rcases List.mem_cons.mp hb with rfl | hb'
      · exact h0
      · exact lt_trans h0 (List.rel_of_sorted_cons h b hb')
    · exact h

/-- The head `global_start` of `run_final_headers` is
`min first_reconciled 0` (with no head at all for an empty candidate set):
it is `0` exactly when the first reconciled candidate's offset is
nonnegative; with an ungated negative first offset no preamble is
inserted and the raw negative offset is the resolved head. -/
theorem run_final_head_gs (raws : List HNode) (doc : List Char) :
    ((run_final_headers raws doc).head?).map (fun u => u.global_start)
      = ((reconcileH raws).head?).map (fun m => min m.global_start 0) := by
  unfold run_final_headers
  cases hru : reconcileH raws with
  | nil => rfl
  | cons r rest =>
    simp only [insertPreambleFinal]
    split
    · rename_i h0
      cases rest with
      | nil =>
        show some preambleH.global_start = some (min r.global_start 0)
        exact congrArg some (by show (0 : Int) = min r.global_start 0; omega)
      | cons y ys =>
        show some preambleH.global_start = some (min r.global_start 0)
        exact congrArg some (by show (0 : Int) = min r.global_start 0; omega)
    · rename_i h0
      cases rest with
      | nil =>
        show some r.global_start = some (min r.global_start 0)
        exact congrArg some (by omega)
      | cons y ys =>
        show some r.global_start = some (min r.global_start 0)
        exact congrArg some (by omega)

theorem run_final_sorted (raws : List HNode) (doc : List Char) :
    List.Sorted hugsLT (run_final_headers raws doc) := by
  unfold run_final_headers
  rw [List.Sorted, List.pairwise_map]
  have h1 : List.Sorted hgsLT (insertPreambleFinal (reconcileH raws)) :=
    insertPreambleFinal_sortedLT (reconcileH_sortedLT raws)
  have h2 := chainEndsH_map_fst (doc.length : Int)
    (insertPreambleFinal (reconcileH raws))
  rw [List.Sorted, ← h2, List.pairwise_map] at h1
  exact h1

theorem run_final_chain (raws : List HNode) (doc : List Char) :
    List.Chain' (fun u v : HUnit => u.global_end = v.global_start)
      (run_final_headers raws doc) := by
  unfold run_final_headers
  rw [List.chain'_map]
  exact chainEndsH_chain _ _

theorem run_final_last (raws : List HNode) (doc : List Char) (h : raws ≠ []) :
    ((run_final_headers raws doc).getLast?).map (fun u => u.global_end)
      = some (doc.length : Int) := by
  unfold run_final_headers
  rw [List.getLast?_map]
  have hne : insertPreambleFinal (reconcileH raws) ≠ [] :=
    insertPreambleFinal_ne_nil (reconcileH_ne_nil h)
  have hch := chainEndsH_getLast? (doc.length : Int) _ hne
  cases hlast : (chainEndsH (doc.length : Int)
      (insertPreambleFinal (reconcileH raws))).getLast? with
  | none => rw [hlast] at hch; cases hch
  | some p =>
    rw [hlast] at hch
    have : p.2 = (doc.length : Int) := by
      have := congrArg (fun o => Option.getD o p.2) hch
      simpa using this
    simp [this]

/-- Per-unit bounds of `run_final_headers`, under the in-range condition
the code itself never enforces: with every candidate `global_start` in
`[0, len)`, every resolved unit is nonempty and inside the document. -/
theorem run_final_mem (raws : List HNode) (doc : List Char)
    (hb : ∀ n ∈ raws, 0 ≤ n.global_start ∧ n.global_start < (doc.length : Int))
    (hne : raws ≠ [])
    {u : HUnit} (hu : u ∈ run_final_headers raws doc) :
    0 ≤ u.global_start ∧ u.global_start < u.global_end
      ∧ u.global_end ≤ (doc.length : Int)
      ∧ u.utext = pySliceI doc u.global_start u.global_end := by
  unfold run_final_headers at hu
  rcases List.mem_map.mp hu with ⟨p, hp, rfl⟩
  have hsorted : List.Sorted hgsLT (insertPreambleFinal (reconcileH raws)) :=
    insertPreambleFinal_sortedLT (reconcileH_sortedLT raws)
  rcases chainEndsH_facts (doc.length : Int) _ hsorted p hp with ⟨h1, h2⟩
  have hlen : (0 : Int) < (doc.length : Int) := by
    cases hr : raws with
    | nil => exact absurd hr hne
    | cons n ns =>
      have := hb n (hr ▸ List.mem_cons_self _ _)
      omega
  have hmemgs : ∀ m ∈ insertPreambleFinal (reconcileH raws),
      0 ≤ m.global_start ∧ m.global_start < (doc.length : Int) := by
    intro m hm
    rcases mem_insertPreambleFinal hm with rfl | hm'
    · exact ⟨le_refl 0, hlen⟩
    · exact hb m (mem_of_mem_reconcileH hm')
  refine ⟨(hmemgs p.1 h1).1, ?_, ?_, rfl⟩
  · rcases h2 with h2 | ⟨y, _, hy2, hlt⟩
    · rw [h2]; exact (hmemgs p.1 h1).2
    · rw [hy2]; exact hlt
  · rcases h2 with h2 | ⟨y, hy, hy2, _⟩
    · rw [h2]
    · rw [hy2]; exact le_of_lt (hmemgs y hy).2

/-! ## Claim C1 -/

/-- C1 (counterexample): the claim requires every scope the pipeline
resolves — including each parent's scope during child extraction — to be
partitioned starting exactly at the scope's start.  For the chapter scope
`[10, 30)` with one surveyed section candidate at 15, `step2children`
(which is how `run_gemini_pipeline` line 214 resolves child scopes, with
no preamble synthesis) returns a single unit starting at 15, not 10. -/
theorem claim_C1_counterexample :
    ¬ (∀ (parent : UNode) (raws : List RNode),
        step2children parent raws ≠ [] →
        ((step2children parent raws).head?).map (fun u => u.global_start)
          = some parent.global_start) := by
  intro h
  have := h ⟨"chapter".data, "C".data, 10, 30, "abcdefghijklmnopqrst".data⟩
    [⟨"section".data, "S".data, 15⟩] (by decide)
  exact absurd this (by decide)

/-- C1 (amended): for every child scope (whose candidates passed the
openai validation gate), `postprocess_nodes` emits units strictly
ascending in `global_start`, with each unit's `global_end` equal to the
next unit's `global_start`, every unit inside `[scope_start, scope_end]`
with a nonempty range, and the last unit ending exactly at the scope end —
but the first unit's `global_start` is only `≥` the scope start (a child
scope whose first candidate lies past the scope start keeps that gap).
For the top level of `run_final_pipeline`, whose candidates nothing
validates: the resolved units are always strictly ascending, chained, and
(for a nonempty candidate set) end exactly at `len(document)`; when
moreover every candidate's `global_start` lies in `[0, len)` — a
condition the code does not enforce — the partition starts exactly at
offset 0 and every unit is nonempty and inside the document (with
out-of-range candidates these conjuncts fail: a negative first offset
suppresses the preamble and the head is negative, `run_final_head_gs`; an
offset `≥ len` yields an empty or inverted final unit). -/
theorem claim_C1_amended :
    (∀ (nodes : List RNode) (ptext : List Char) (off : Nat),
      List.Sorted ugsLT (postprocess_nodes nodes ptext off)
      ∧ List.Chain' (fun u v : UNode => u.global_end = v.global_start)
          (postprocess_nodes nodes ptext off)
      ∧ (∀ u ∈ postprocess_nodes nodes ptext off,
          off ≤ u.global_start ∧ u.global_start < u.global_end
            ∧ u.global_end ≤ off + ptext.length)
      ∧ (postprocess_nodes nodes ptext off ≠ [] →
          ((postprocess_nodes nodes ptext off).getLast?).map (fun u => u.global_end)
            = some (off + ptext.length)))
    ∧ (∀ (raws : List HNode) (doc : List Char),
        List.Sorted hugsLT (run_final_headers raws doc)
        ∧ List.Chain' (fun u v : HUnit => u.global_end = v.global_start)
            (run_final_headers raws doc)
        ∧ (raws ≠ [] →
            ((run_final_headers raws doc).getLast?).map (fun u => u.global_end)
              = some (doc.length : Int))
        ∧ ((∀ n ∈ raws, 0 ≤ n.global_start ∧ n.global_start < (doc.length : Int)) →
            raws ≠ [] →
            ((run_final_headers raws doc).head?).map (fun u => u.global_start)
              = some 0
            ∧ ∀ u ∈ run_final_headers raws doc,
                0 ≤ u.global_start ∧ u.global_start < u.global_end
                  ∧ u.global_end ≤ (doc.length : Int))) := by
  constructor
  · intro nodes ptext off
    refine ⟨postprocess_sorted nodes ptext off, postprocess_chain nodes ptext off,
      ?_, postprocess_last_end nodes ptext off⟩
    intro u hu
    rcases postprocess_mem nodes ptext off hu with ⟨h1, h2, h3, _⟩
    exact ⟨h1, h2, h3⟩
  · intro raws doc
    refine ⟨run_final_sorted raws doc, run_final_chain raws doc,
      fun hne => run_final_last raws doc hne, ?_⟩
    intro hb hne
    constructor
    · have hh := run_final_head_gs raws doc
      cases hru : reconcileH raws with
      | nil => exact absurd hru (reconcileH_ne_nil hne)
      | cons m rest =>
        have hm : m ∈ reconcileH raws := by
          rw [hru]; exact List.mem_cons_self _ _
        have h0 := (hb m (mem_of_mem_reconcileH hm)).1
        rw [hru] at hh
        rw [hh]
        show some (min m.global_start 0) = some 0
        exact congrArg some (by omega)
    · intro u hu
      rcases run_final_mem raws doc hb hne hu with ⟨h1, h2, h3, _⟩
      exact ⟨h1, h2, h3⟩

/-- C1 (witness): the amended claim at one concrete scope and one concrete
single-pass run with in-range candidates. -/
theorem claim_C1_witness :
    (∀ u ∈ postprocess_nodes [⟨"section".data, "S".data, 15⟩]
        "abcdefghijklmnopqrst".data 10,
      10 ≤ u.global_start ∧ u.global_start < u.global_end ∧ u.global_end ≤ 10 + 20)
    ∧ ((run_final_headers [⟨"chapter".data, "C".data, 3⟩] "abcdef".data).head?).map
        (fun u => u.global_start) = some 0 := by
  constructor
  · intro u hu
    have := (claim_C1_amended.1 [⟨"section".data, "S".data, 15⟩]
      "abcdefghijklmnopqrst".data 10).2.2.1 u hu
    simpa using this
  · exact ((claim_C1_amended.2 [⟨"chapter".data, "C".data, 3⟩] "abcdef".data).2.2.2
      (by decide) (by decide)).1

/-! ## Claim C3 -/

/-- C3 (counterexample): the claim says that whenever a scope's first
reconciled candidate starts strictly after the scope start, a preamble
unit is prepended, so the resolved scope begins at the scope start.  In
the chapter scope `[10, 30)` with its single candidate at 15 the trigger
condition holds, yet `run_gemini_pipeline` synthesizes preambles only at
the top level: the child scope's resolved sequence begins at 15 and
contains no preamble-typed unit. -/
theorem claim_C3_counterexample :
    ¬ (∀ (parent : UNode) (raws : List RNode),
        (∀ gs ∈ ((step2children parent raws).head?).map (fun u => u.global_start),
          parent.global_start < gs) →
        ((step2children parent raws).head?).map (fun u => u.global_start)
          = some parent.global_start
        ∨ (step2children parent raws).any
            (fun u => u.ntype == "preamble".data) = true) := by
  intro h
  have := h ⟨"chapter".data, "C".data, 10, 30, "abcdefghijklmnopqrst".data⟩
    [⟨"section".data, "S".data, 15⟩] (by decide)
  exact absurd this (by decide)

/-- C3 (amended): preamble synthesis happens only for the top-level scope.
In `run_gemini_pipeline` the trigger is the *raw* architect list (empty,
or first raw element's `global_start > 0`, lines 196-197); a preamble with
`global_start = 0` is prepended before reconciliation, so the resolved
top-level scope of a nonempty document always begins at offset 0, and with
no candidates at all it is the single preamble unit covering the whole
document.  In `run_final_pipeline` the preamble is inserted after
reconciliation only when the first reconciled `global_start` is *strictly
positive* (the no-candidate case raises instead), and nothing validates
offsets on that path: the resolved head offset is
`min first_reconciled 0` — the scope start 0 exactly when the first
reconciled candidate's offset is nonnegative, and the raw negative offset
itself otherwise.  Child scopes receive no preamble. -/
theorem claim_C3_amended (doc : List Char) (raws : List RNode) (hne : doc ≠ []) :
    ((step1 doc raws).head?).map (fun u => u.global_start) = some 0
    ∧ (raws = [] → step1 doc raws
        = [⟨"preamble".data, "Preamble".data, 0, doc.length, doc⟩])
    ∧ (∀ (raws2 : List HNode) (doc2 : List Char),
        ((run_final_headers raws2 doc2).head?).map (fun u => u.global_start)
          = ((reconcileH raws2).head?).map (fun m => min m.global_start 0)) := by
  refine ⟨?_, ?_, fun raws2 doc2 => run_final_head_gs raws2 doc2⟩
  · apply postprocess_head_gs
    · cases hr : raws with
      | nil => exact ⟨preambleR, by simp [insertPreambleRaw], rfl⟩
      | cons r rest =>
        by_cases h0 : 0 < r.global_start
        · exact ⟨preambleR, by simp [insertPreambleRaw, h0], rfl⟩
        · exact ⟨r, by simp [insertPreambleRaw, h0], by omega⟩
    · simpa using hne
  · intro hr
    subst hr
    have hlen : 0 < doc.length := List.length_pos.mpr hne
    have hfil : List.filter (fun n =>
        0 ≤ n.global_start && n.global_start < 0 + doc.length) [preambleR]
        = [preambleR] := by
      simp [preambleR]
      omega
    simp only [step1, insertPreambleRaw, postprocess_nodes, hfil]
    simp [reconcile, dictValues, dictInsert, List.insertionSort, chainEnds,
      preambleR, pySlice, List.take_of_length_le]

/-- C3 (witness): the amended claim at a concrete document and raw list. -/
theorem claim_C3_witness :
    ((step1 "hello world".data [⟨"chapter".data, "C".data, 6⟩]).head?).map
      (fun u => u.global_start) = some 0 :=
  (claim_C3_amended "hello world".data [⟨"chapter".data, "C".data, 6⟩]
    (by decide)).1

/-! ## Claim C4 -/

theorem mem_foldl_dictInsert_of_uniq (l : List RNode) :
    ∀ acc, (∀ a, (a ∈ acc ∨ a ∈ l) → ∀ b, (b ∈ acc ∨ b ∈ l) →
        a.global_start = b.global_start → a = b) →
      ∀ n, (n ∈ acc ∨ n ∈ l) → n ∈ l.foldl dictInsert acc := by
  induction l with
  | nil =>
    intro acc _ n hn
    rcases hn with hn | hn
    · simpa using hn
    · cases hn
  | cons x xs ih =>
    intro acc huniq n hn
    rw [List.foldl_cons]
    have hmemi : ∀ m, m ∈ acc → m ∈ dictInsert acc x := by
      intro m hm
      unfold dictInsert
      split
      · refine List.mem_map.mpr ⟨m, hm, ?_⟩
        by_cases hk : m.global_start = x.global_start
        · have : m = x := huniq m (Or.inl hm) x
            (Or.inr (List.mem_cons_self _ _)) hk
          simp [hk, this]
        · simp [hk]
      · exact List.mem_append_left _ hm
    have hx : x ∈ dictInsert acc x := by
      by_cases hany : acc.any (fun m => m.global_start == x.global_start) = true
      · rcases List.any_eq_true.mp hany with ⟨m, hm, hk⟩
        rw [beq_iff_eq] at hk
        have hmx : m = x := huniq m (Or.inl hm) x (Or.inr (List.mem_cons_self _ _)) hk
        exact hmemi x (hmx ▸ hm)
      · unfold dictInsert
        rw [if_neg hany]
        exact List.mem_append_right _ (List.mem_singleton.mpr rfl)
    apply ih (dictInsert acc x)
    · intro a ha b hb
      have ha' : a ∈ acc ∨ a ∈ x :: xs := by
        rcases ha with ha | ha
        · rcases mem_dictInsert ha with h | h
          · exact Or.inl h
          · exact Or.inr (h ▸ List.mem_cons_self _ _)
        · exact Or.inr (List.mem_cons_of_mem _ ha)
      have hb' : b ∈ acc ∨ b ∈ x :: xs := by
        rcases hb with hb | hb
        · rcases mem_dictInsert hb with h | h
          · exact Or.inl h
          · exact Or.inr (h ▸ List.mem_cons_self _ _)
        · exact Or.inr (List.mem_cons_of_mem _ hb)
      exact huniq a ha' b hb'
    · rcases hn with hn | hn
      · exact Or.inl (hmemi n hn)
      · rcases List.mem_cons.mp hn with rfl | hn'
        · exact Or.inl hx
        · exact Or.inr hn'

theorem mem_reconcile_iff_of_uniq {l : List RNode}
    (hu : ∀ a ∈ l, ∀ b ∈ l, a.global_start = b.global_start → a = b)
    (n : RNode) : n ∈ reconcile l ↔ n ∈ l := by
  constructor
  · exact mem_of_mem_reconcile
  · intro hn
    rw [(reconcile_perm l).mem_iff]
    apply mem_foldl_dictInsert_of_uniq l []
    · intro a ha b hb
      rcases ha with ha | ha
      · cases ha
      · rcases hb with hb | hb
        · cases hb
        · exact hu a ha b hb
    · exact Or.inr hn

/-- C4 (counterexample): reconciliation is *not* order-independent.  Two
candidates sharing `global_start = 5` but with different types and titles
survive differently depending on input order: the dict comprehension keeps
the last-written value, so the two permutations yield different outputs. -/
theorem claim_C4_counterexample :
    ¬ (∀ (l₁ l₂ : List RNode), l₁.Perm l₂ → reconcile l₁ = reconcile l₂) := by
  intro h
  have := h [⟨"chapter".data, "A".data, 5⟩, ⟨"section".data, "B".data, 5⟩]
    [⟨"section".data, "B".data, 5⟩, ⟨"chapter".data, "A".data, 5⟩] (by decide)
  exact absurd this (by decide)

/-- C4 (amended): reconciliation (dedup by `global_start`, then ascending
sort) is order-independent *provided* no two distinct candidates share a
`global_start` — i.e. duplicates coming from overlapping spans are
identical records.  When two candidates collide on `global_start` with
different type or title, the survivor is the last one written, so the
output depends on input order (the claimed tie-robustness fails, see the
counterexample). -/
theorem claim_C4_amended (l₁ l₂ : List RNode) (hp : l₁.Perm l₂)
    (hu : ∀ a ∈ l₁, ∀ b ∈ l₁, a.global_start = b.global_start → a = b) :
    reconcile l₁ = reconcile l₂ := by
  have hu₂ : ∀ a ∈ l₂, ∀ b ∈ l₂, a.global_start = b.global_start → a = b := by
    intro a ha b hb
    exact hu a (hp.symm.subset ha) b (hp.symm.subset hb)
  have hmem : ∀ n, n ∈ reconcile l₁ ↔ n ∈ reconcile l₂ := by
    intro n
    rw [mem_reconcile_iff_of_uniq hu, mem_reconcile_iff_of_uniq hu₂]
    exact hp.mem_iff
  have hnd₁ : (reconcile l₁).Nodup := (keysNodup_reconcile l₁).of_map _
  have hnd₂ : (reconcile l₂).Nodup := (keysNodup_reconcile l₂).of_map _
  have hperm : (reconcile l₁).Perm (reconcile l₂) :=
    (List.perm_ext_iff_of_nodup hnd₁ hnd₂).mpr hmem
  haveI : IsAntisymm RNode gsLT :=
    ⟨fun _ _ h h' => (Nat.lt_irrefl _ (Nat.lt_trans h h')).elim⟩
  exact List.eq_of_perm_of_sorted hperm (reconcile_sortedLT l₁) (reconcile_sortedLT l₂)

/-- C4 (witness): order-independence on a duplicate-free concrete pair. -/
theorem claim_C4_witness :
    reconcile [⟨"chapter".data, "A".data, 3⟩, ⟨"section".data, "B".data, 7⟩]
      = reconcile [⟨"section".data, "B".data, 7⟩, ⟨"chapter".data, "A".data, 3⟩] :=
  claim_C4_amended _ _ (by decide) (by decide)

/-! ## Claim C2 -/

theorem step2children_text_abs (doc : List Char) (t : UNode) (raws : List RNode)
    (ht : t.utext = pySlice doc t.global_start t.global_end) :
    ∀ u ∈ step2children t raws,
      u.utext = pySlice doc u.global_start u.global_end := by
  intro u hu
  unfold step2children at hu
  split at hu
  · cases hu
  · exact postprocess_text_abs doc raws t.utext t.global_start
      (unit_text_self_slice doc t ht) u hu

theorem step3children_text_abs (doc : List Char) (t : UNode) (raws : List RNode)
    (ht : t.utext = pySlice doc t.global_start t.global_end) :
    ∀ u ∈ step3children t raws,
      u.utext = pySlice doc u.global_start u.global_end := by
  intro u hu
  unfold step3children at hu
  split at hu
  · exact postprocess_text_abs doc raws t.utext t.global_start
      (unit_text_self_slice doc t ht) u hu
  · cases hu

/-- C2 (confirmed): every unit produced by the pipeline, at every nesting
depth and for *arbitrary* extractor outputs (`raw1`, `o2`, `o3`), stores a
text equal to the slice of the one full document at its own offsets
(`unit.text == document[global_start:global_end]`), so every text is
re-derivable from the stored offsets alone.  (The code slices children
from the parent's text at scope-local offsets, but because the parent's
text is itself the document slice at its offsets, the values coincide.) -/
theorem claim_C2 (doc : List Char) (raw1 : List RNode)
    (o2 o3 : UNode → List RNode) :
    ∀ u ∈ allUnits (runPipeline doc raw1 o2 o3),
      u.utext = pySlice doc u.global_start u.global_end := by
  intro u hu
  have htop : ∀ t ∈ step1 doc raw1,
      t.utext = pySlice doc t.global_start t.global_end := by
    intro t ht
    refine postprocess_text_abs doc _ doc 0 ?_ t ht
    simp [pySlice]
  unfold allUnits runPipeline at hu
  rw [List.mem_flatten] at hu
  rcases hu with ⟨L, hL, huL⟩
  rw [List.mem_map] at hL
  rcases hL with ⟨pair, hpair, rfl⟩
  rw [List.mem_map] at hpair
  rcases hpair with ⟨t, ht, rfl⟩
  have htt := htop t ht
  by_cases hsecs : (step2children t (o2 t)).isEmpty
  · simp only [hsecs, if_pos] at huL
    rcases List.mem_cons.mp huL with rfl | hu2
    · exact htt
    · rw [List.mem_flatten] at hu2
      rcases hu2 with ⟨M, hM, huM⟩
      rw [List.mem_map] at hM
      rcases hM with ⟨sp, hsp, rfl⟩
      rw [List.mem_map] at hsp
      rcases hsp with ⟨a, ha, rfl⟩
      rcases List.mem_cons.mp huM with rfl | hu3
      · exact step3children_text_abs doc t (o3 t) htt u ha
      · cases hu3
  · simp only [hsecs, if_neg, Bool.false_eq_true, not_false_eq_true] at huL
    rcases List.mem_cons.mp huL with rfl | hu2
    · exact htt
    · rw [List.mem_flatten] at hu2
      rcases hu2 with ⟨M, hM, huM⟩
      rw [List.mem_map] at hM
      rcases hM with ⟨sp, hsp, rfl⟩
      rw [List.mem_map] at hsp
      rcases hsp with ⟨s, hs, rfl⟩
      have hst := step2children_text_abs doc t (o2 t) htt s hs
      rcases List.mem_cons.mp huM with rfl | hu3
      · exact hst
      · exact step3children_text_abs doc s (o3 s) hst u hu3

/-- C2 (witness): the section unit `[3, 6)` of a concrete three-level run
stores exactly `document[3:6]`. -/
theorem claim_C2_witness :
    (⟨"section".data, "S".data, 3, 6, "def".data⟩ : UNode).utext
      = pySlice "abcdef".data 3 6 :=
  claim_C2 "abcdef".data [⟨"chapter".data, "C".data, 2⟩]
    (fun _ => [⟨"section".data, "S".data, 3⟩]) (fun _ => [])
    ⟨"section".data, "S".data, 3, 6, "def".data⟩ (by decide)

/-! ## Claim C5 -/

theorem rawPasses_spec {chunk : List Char} {r : RawX}
    (h : rawPasses chunk r = true) :
    ∃ ty ti st, r.rtype = some ty ∧ r.rtitle = some ti ∧ r.rstart = some st
      ∧ 0 ≤ st ∧ st < (chunk.length : Int)
      ∧ (st = 0 ∨ chunk.getD (st.toNat - 1) ' ' = '\n')
      ∧ pyStrip ((chunk.drop st.toNat).take ti.length) = pyStrip ti := by
  rcases r with ⟨ty?, ti?, st?⟩
  cases ty? with
  | none => simp [rawPasses] at h
  | some ty =>
    cases ti? with
    | none => simp [rawPasses] at h
    | some ti =>
      cases st? with
      | none => simp [rawPasses] at h
      | some st =>
        simp only [rawPasses, Bool.and_eq_true, decide_eq_true_eq,
          Bool.or_eq_true, beq_iff_eq] at h
        exact ⟨ty, ti, st, rfl, rfl, rfl, h.1.1.1, h.1.1.2, h.1.2, h.2⟩

/-- C5 (confirmed): the validation gate returns exactly the in-order
transforms (`TYPE_MAPPING` applied, `global_start` attached) of the
candidates that carry all of `type`/`title`/`start_index` and pass the
three checks; consequently every emitted record's `start_index` is inside
`[0, len(span))`, sits at a line start, and its stripped title matches the
stripped span text at `[start_index, start_index + len(title))`, while
every failing or malformed candidate is absent from the returned list. -/
theorem claim_C5 (chunk : List Char) (off : Nat) (raws : List RawX) :
    validated_nodes chunk off raws
      = (raws.filter (rawPasses chunk)).map (mkVNode off)
    ∧ ∀ v ∈ validated_nodes chunk off raws,
        0 ≤ v.vstart ∧ v.vstart < (chunk.length : Int)
        ∧ (v.vstart = 0 ∨ chunk.getD (v.vstart.toNat - 1) ' ' = '\n')
        ∧ pyStrip ((chunk.drop v.vstart.toNat).take v.vtitle.length)
            = pyStrip v.vtitle := by
  have heq : validated_nodes chunk off raws
      = (raws.filter (rawPasses chunk)).map (mkVNode off) := by
    induction raws with
    | nil => rfl
    | cons r rest ih =>
      rw [validated_nodes]
      by_cases h : rawPasses chunk r = true
      · rw [if_pos h, List.filter_cons_of_pos h, List.map_cons, ih]
      · rw [if_neg h, List.filter_cons_of_neg (by simpa using h), ih]
  refine ⟨heq, ?_⟩
  intro v hv
  rw [heq] at hv
  rcases List.mem_map.mp hv with ⟨r, hr, rfl⟩
  have hpass : rawPasses chunk r = true := (List.mem_filter.mp hr).2
  rcases rawPasses_spec hpass with ⟨ty, ti, st, hty, hti, hst, h0, hlen, hline, hstrip⟩
  have hmk : mkVNode off r = ⟨TYPE_MAPPING ty, ti, st, st + (off : Int)⟩ := by
    unfold mkVNode
    rw [hty, hti, hst]
  rw [hmk]
  exact ⟨h0, hlen, hline, hstrip⟩

/-- C5 (witness): the gate at a concrete chunk and candidate list. -/
theorem claim_C5_witness :
    0 ≤ (⟨"article".data, "Title".data, 0, 7⟩ : VNode).vstart
    ∧ (⟨"article".data, "Title".data, 0, 7⟩ : VNode).vstart
        < ("Title x\nNext".data.length : Int)
    ∧ ((⟨"article".data, "Title".data, 0, 7⟩ : VNode).vstart = 0
        ∨ "Title x\nNext".data.getD
            ((⟨"article".data, "Title".data, 0, 7⟩ : VNode).vstart.toNat - 1) ' '
          = '\n')
    ∧ pyStrip (("Title x\nNext".data.drop
          (⟨"article".data, "Title".data, 0, 7⟩ : VNode).vstart.toNat).take
          (⟨"article".data, "Title".data, 0, 7⟩ : VNode).vtitle.length)
        = pyStrip (⟨"article".data, "Title".data, 0, 7⟩ : VNode).vtitle :=
  (claim_C5 "Title x\nNext".data 7
    [⟨some "article".data, some "Title".data, some 0⟩]).2
    ⟨"article".data, "Title".data, 0, 7⟩ (by decide)

/-! ## Segmenter bounds -/

theorem rfindFrom_bounds (text sub : List Char) (a : Nat) :
    ∀ hi p, a ≤ hi → rfindFrom text sub a hi = some p → a ≤ p ∧ p ≤ hi := by
  intro hi
  induction hi with
  | zero =>
    intro p ha h
    rw [rfindFrom] at h
    split at h
    · cases h; omega
    · cases h
  | succ n ih =>
    intro p ha h
    rw [rfindFrom] at h
    split at h
    · cases h; omega
    · split at h
      · cases h
      · rename_i hle
        have := ih p (by omega) h
        omega

theorem pyRfind_bounds {text sub : List Char} {a b : Int} {p : Nat}
    (h : pyRfind text sub a b = some p) :
    pyAdj text.length a ≤ p ∧ p + sub.length ≤ pyAdj text.length b := by
  unfold pyRfind at h
  split at h
  · cases h
  · rename_i hguard
    have := rfindFrom_bounds text sub (pyAdj text.length a)
      (pyAdj text.length b - sub.length) p (by omega) h
    omega

theorem subAt_empty (text : List Char) (p : Nat) : subAt text [] p = true := by
  simp [subAt]

theorem rfindFrom_empty (text : List Char) (a : Nat) :
    ∀ hi, rfindFrom text [] a hi = some hi := by
  intro hi
  cases hi with
  | zero => simp [rfindFrom, subAt]
  | succ n => simp [rfindFrom, subAt]

theorem pyRfind_empty (text : List Char) (a b : Int)
    (hab : pyAdj text.length a ≤ pyAdj text.length b) :
    pyRfind text [] a b = some (pyAdj text.length b) := by
  unfold pyRfind
  rw [List.length_nil, if_neg (by omega), Nat.sub_zero]
  exact rfindFrom_empty text _ _

theorem pyAdj_of_nonneg {len : Nat} {i : Int} (h0 : 0 ≤ i)
    (hl : i ≤ (len : Int)) : pyAdj len i = i.toNat := by
  unfold pyAdj
  rw [if_neg (by omega)]
  omega

theorem pySliceI_zero_length (l : List Char) :
    pySliceI l 0 (l.length : Int) = l := by
  have h0 : pyAdj l.length 0 = 0 := by simp [pyAdj]
  have h1 : pyAdj l.length (l.length : Int) = l.length := by
    rw [pyAdj_of_nonneg (by omega) (by omega)]
    omega
  unfold pySliceI
  rw [h0, h1, pySlice_zero_length]

theorem pySliceI_ne_nil (text : List Char) (a b : Int) (h0 : 0 ≤ a)
    (hab : a < b) (hb : b ≤ (text.length : Int)) : pySliceI text a b ≠ [] := by
  have ha' : pyAdj text.length a = a.toNat := pyAdj_of_nonneg h0 (by omega)
  have hb' : pyAdj text.length b = b.toNat := pyAdj_of_nonneg (by omega) hb
  unfold pySliceI pySlice
  rw [ha', hb']
  intro hc
  have hlen := congrArg List.length hc
  rw [List.length_take, List.length_drop, List.length_nil] at hlen
  omega

theorem firstSep_cases (text : List Char) (a b : Int) :
    ∀ (seps : List (List Char)) (pl : Nat × Nat),
      firstSep text a b seps = some pl →
      ∃ sep ∈ seps, pyRfind text sep a b = some pl.1 ∧ pl.2 = sep.length := by
  intro seps
  induction seps with
  | nil => intro pl h; cases h
  | cons sep rest ih =>
    intro pl h
    rw [firstSep] at h
    cases hp : pyRfind text sep a b with
    | some p =>
      rw [hp] at h
      cases h
      exact ⟨sep, List.mem_cons_self _ _, hp, rfl⟩
    | none =>
      rw [hp] at h
      rcases ih pl h with ⟨s, hs, h1, h2⟩
      exact ⟨s, List.mem_cons_of_mem _ hs, h1, h2⟩

theorem actualEnd_bounds (text : List Char) (start ideal : Int)
    (h0 : 0 ≤ start) (h1 : start < ideal) (h2 : ideal < (text.length : Int)) :
    start < actualEnd text start ideal ∧ actualEnd text start ideal ≤ ideal := by
  have hm0 : (0 : Int) ≤ max start (ideal - 5000) := le_max_of_le_left h0
  have hm1 : max start (ideal - 5000) ≤ ideal := max_le (le_of_lt h1) (by omega)
  have hma : pyAdj text.length (max start (ideal - 5000))
      = (max start (ideal - 5000)).toNat := pyAdj_of_nonneg hm0 (by omega)
  have hmb : pyAdj text.length ideal = ideal.toNat :=
    pyAdj_of_nonneg (by omega) (by omega)
  have hlow : ∀ (sub : List Char) (p : Nat),
      pyRfind text sub (max start (ideal - 5000)) ideal = some p →
        start ≤ (p : Int) ∧ (p : Int) + sub.length ≤ ideal := by
    intro sub p hp
    rcases pyRfind_bounds hp with ⟨hl, hr⟩
    rw [hma] at hl
    rw [hmb] at hr
    omega
  unfold actualEnd
  cases hfs : firstSep text (max start (ideal - 5000)) ideal chunkSeparators with
  | none => exact ⟨h1, le_refl _⟩
  | some pl =>
    rcases firstSep_cases text _ _ chunkSeparators pl hfs with ⟨sep, hsep, hfind, hlen⟩
    have hm : sep = "\n\n".data ∨ sep = ". ".data ∨ sep = " ".data ∨ sep = [] := by
      simpa [chunkSeparators] using hsep
    rcases hlow sep pl.1 hfind with ⟨hp1, hp2⟩
    show start < ((pl.1 + pl.2 : Nat) : Int) ∧ ((pl.1 + pl.2 : Nat) : Int) ≤ ideal
    rcases hm with rfl | rfl | rfl | rfl
    · have hsl : ("\n\n".data).length = 2 := by decide
      rw [hsl] at hp2
      have hl2 : pl.2 = 2 := by rw [hlen]; decide
      omega
    · have hsl : ((". ".data)).length = 2 := by decide
      rw [hsl] at hp2
      have hl2 : pl.2 = 2 := by rw [hlen]; decide
      omega
    · have hsl : ((" ".data)).length = 1 := by decide
      rw [hsl] at hp2
      have hl2 : pl.2 = 1 := by rw [hlen]; decide
      omega
    · have hempty := pyRfind_empty text (max start (ideal - 5000)) ideal
        (by rw [hma, hmb]; omega)
      rw [hempty] at hfind
      have hpl : pl.1 = ideal.toNat := by
        have := hfind
        injection this with h'
        rw [hmb] at h'
        exact h'.symm
      have hl2 : pl.2 = 0 := by rw [hlen]; decide
      omega

theorem chunkLoop_cover (text : List Char) (csize osize : Nat) (hcs : 1 ≤ csize) :
    ∀ (fuel : Nat) (start : Int) (chunks : List Chunk),
      chunkLoop text csize osize fuel start = some chunks →
      (∀ c ∈ chunks, c.ctext = pySliceI text c.start_char c.end_char
        ∧ c.global_start = c.start_char
        ∧ (0 ≤ c.start_char → c.start_char < c.end_char
            ∧ c.end_char ≤ (text.length : Int) ∧ c.ctext ≠ []))
      ∧ (∀ i : Nat, start ≤ (i : Int) → i < text.length →
          ∃ c ∈ chunks, c.start_char ≤ (i : Int) ∧ (i : Int) < c.end_char) := by
  intro fuel
  induction fuel with
  | zero => intro start chunks h; cases h
  | succ n ih =>
    intro start chunks h
    rw [chunkLoop] at h
    by_cases hstart : start < (text.length : Int)
    · rw [if_pos hstart] at h
      by_cases hend : (text.length : Int) ≤ start + csize
      · rw [if_pos hend] at h
        have hch : chunks
            = [⟨start, text.length, pySliceI text start text.length, start⟩] := by
          injection h with h'
          exact h'.symm
        subst hch
        constructor
        · intro c hc
          rcases List.mem_singleton.mp hc with rfl
          refine ⟨rfl, rfl, ?_⟩
          intro hge
          exact ⟨hstart, le_refl _, pySliceI_ne_nil text start _ hge hstart (le_refl _)⟩
        · intro i hi1 hi2
          refine ⟨_, List.mem_singleton.mpr rfl, hi1, ?_⟩
          show (i : Int) < (text.length : Int)
          omega
      · rw [if_neg hend] at h
        cases hrec : chunkLoop text csize osize n
            (actualEnd text start (start + csize) - osize) with
        | none => rw [hrec] at h; cases h
        | some rest =>
          rw [hrec] at h
          have hch : chunks = ⟨start, actualEnd text start (start + csize),
              pySliceI text start (actualEnd text start (start + csize)), start⟩
                :: rest := by
            injection h with h'
            exact h'.symm
          subst hch
          rcases ih (actualEnd text start (start + csize) - osize) rest hrec
            with ⟨hfacts, hcover⟩
          constructor
          · intro c hc
            rcases List.mem_cons.mp hc with rfl | hc'
            · refine ⟨rfl, rfl, ?_⟩
              intro hge
              rcases actualEnd_bounds text start (start + csize) hge (by omega)
                (by omega) with ⟨hae1, hae2⟩
              refine ⟨hae1, ?_, pySliceI_ne_nil text start _ hge hae1 (by omega)⟩
              show actualEnd text start (start + (csize : Int)) ≤ (text.length : Int)
              omega
            · exact hfacts c hc'
          · intro i hi1 hi2
            by_cases hlt : (i : Int) < actualEnd text start (start + csize)
            · exact ⟨_, List.mem_cons_self _ _, hi1, hlt⟩
            · rcases hcover i (by omega) hi2 with ⟨c, hc, hc1, hc2⟩
              exact ⟨c, List.mem_cons_of_mem _ hc, hc1, hc2⟩
    · rw [if_neg hstart] at h
      have hch : chunks = [] := by
        injection h with h'
        exact h'.symm
      subst hch
      refine ⟨fun c hc => absurd hc (List.not_mem_nil c), ?_⟩
      intro i hi1 hi2
      exfalso
      omega

/-! ## Claim C7 -/

/-- C7 (counterexample): "no span is zero-length" fails on a real
terminating run.  On the 20-character text `"\n\n" ++ 18 a's` with
`chunk_size_chars = 10`, `overlap_chars = 5`, the first boundary is
separator-adjusted down to 2, the next start becomes `2 - 5 = -3`, and
Python's negative-index slicing makes that span's text
`text[-3:7] = text[17:7] = ""`: the function returns five chunks, one of
which carries the empty string. -/
theorem claim_C7_counterexample :
    ¬ (∀ (text : List Char) (csize osize fuel : Nat) (chunks : List Chunk),
        chunk_text_semantic text csize osize fuel = some chunks →
        ∀ c ∈ chunks, c.ctext ≠ []) := by
  intro h
  exact absurd
    (h "\n\naaaaaaaaaaaaaaaaaa".data 10 5 20
      [⟨0, 2, "\n\n".data, 0⟩, ⟨-3, 7, [], -3⟩, ⟨2, 12, "aaaaaaaaaa".data, 2⟩,
        ⟨7, 17, "aaaaaaaaaa".data, 7⟩, ⟨12, 20, "aaaaaaaa".data, 12⟩]
      (by decide) ⟨-3, 7, [], -3⟩ (by decide))
    (by decide)

/-- C7 (amended): whenever the loop terminates, the recorded
`[start_char, end_char)` spans cover every character position of the
input, each span's text equals the Python slice of the input at its
recorded offsets (with `global_start = start_char`), and every span whose
recorded `start_char` is nonnegative is nonempty with
`start_char < end_char ≤ len`.  But "no span is zero-length" is false:
the empty input yields the single span `[0, 0)`, and on nonempty input
the next start `actual_end - overlap_chars` can go negative, recording a
span whose Python slice is empty (see the counterexample). -/
theorem claim_C7_amended (text : List Char) (csize osize fuel : Nat)
    (chunks : List Chunk) (hne : text ≠ []) (hcs : 1 ≤ csize)
    (hterm : chunk_text_semantic text csize osize fuel = some chunks) :
    (∀ c ∈ chunks, c.ctext = pySliceI text c.start_char c.end_char
      ∧ c.global_start = c.start_char)
    ∧ (∀ c ∈ chunks, 0 ≤ c.start_char → c.start_char < c.end_char
        ∧ c.end_char ≤ (text.length : Int) ∧ c.ctext ≠ [])
    ∧ (∀ i : Nat, i < text.length →
        ∃ c ∈ chunks, c.start_char ≤ (i : Int) ∧ (i : Int) < c.end_char) := by
  have hlen : 0 < text.length := List.length_pos.mpr hne
  unfold chunk_text_semantic at hterm
  by_cases hshort : text.length ≤ csize
  · rw [if_pos hshort] at hterm
    have hch : chunks = [⟨0, text.length, text, 0⟩] := by
      injection hterm with h'
      exact h'.symm
    subst hch
    refine ⟨?_, ?_, ?_⟩
    · intro c hc
      rcases List.mem_singleton.mp hc with rfl
      exact ⟨(pySliceI_zero_length text).symm, rfl⟩
    · intro c hc hge
      rcases List.mem_singleton.mp hc with rfl
      refine ⟨?_, le_refl _, hne⟩
      show (0 : Int) < (text.length : Int)
      omega
    · intro i hi
      refine ⟨_, List.mem_singleton.mpr rfl, ?_, ?_⟩
      · show (0 : Int) ≤ (i : Int)
        omega
      · show (i : Int) < (text.length : Int)
        omega
  · rw [if_neg hshort] at hterm
    rcases chunkLoop_cover text csize osize hcs fuel 0 chunks hterm
      with ⟨hfacts, hcover⟩
    exact ⟨fun c hc => ⟨(hfacts c hc).1, (hfacts c hc).2.1⟩,
      fun c hc hge => (hfacts c hc).2.2 hge,
      fun i hi => hcover i (by omega) hi⟩

/-- C7 (witness): a concrete terminating run on a 14-character text (all
starts nonnegative, so every span is nonempty). -/
theorem claim_C7_witness :
    (∀ c ∈ [(⟨0, 6, "aaaaaa".data, 0⟩ : Chunk), ⟨4, 10, "aabbbb".data, 4⟩,
        ⟨8, 14, "bbbbbb".data, 8⟩],
      c.ctext = pySliceI "aaaaaabbbbbbbb".data c.start_char c.end_char
        ∧ c.global_start = c.start_char)
    ∧ (∀ c ∈ [(⟨0, 6, "aaaaaa".data, 0⟩ : Chunk), ⟨4, 10, "aabbbb".data, 4⟩,
        ⟨8, 14, "bbbbbb".data, 8⟩],
      0 ≤ c.start_char → c.start_char < c.end_char
        ∧ c.end_char ≤ (("aaaaaabbbbbbbb".data).length : Int) ∧ c.ctext ≠ [])
    ∧ (∀ i : Nat, i < ("aaaaaabbbbbbbb".data).length →
        ∃ c ∈ [(⟨0, 6, "aaaaaa".data, 0⟩ : Chunk), ⟨4, 10, "aabbbb".data, 4⟩,
          ⟨8, 14, "bbbbbb".data, 8⟩],
          c.start_char ≤ (i : Int) ∧ (i : Int) < c.end_char) :=
  claim_C7_amended "aaaaaabbbbbbbb".data 6 2 10
    [⟨0, 6, "aaaaaa".data, 0⟩, ⟨4, 10, "aabbbb".data, 4⟩, ⟨8, 14, "bbbbbb".data, 8⟩]
    (by decide) (by decide) (by decide)

/-! ## Claim C8 -/

/-- C8 (code bug): the loop has no "did the next start advance?" detection,
and with `chunk_size_chars = 1`, `overlap_chars = 1` on the two-character
text `"ab"` the computed next start equals the current start forever
(`rfind("", 0, 1) = 1`, `actual_end = 1`, next start `1 - 1 = 0`): the
Python loop never terminates (the model returns `none` for every fuel). -/
theorem claim_C8 : ∀ fuel, chunk_text_semantic "ab".data 1 1 fuel = none := by
  have hstep : ∀ n, chunkLoop "ab".data 1 1 (n + 1) 0
      = (chunkLoop "ab".data 1 1 n 0).map
          (fun rest => ⟨0, 1, pySliceI "ab".data 0 1, 0⟩ :: rest) := by
    intro n
    rfl
  have hloop : ∀ f, chunkLoop "ab".data 1 1 f 0 = none := by
    intro f
    induction f with
    | zero => rfl
    | succ n ih => rw [hstep n, ih]; rfl
  intro fuel
  unfold chunk_text_semantic
  rw [if_neg (by decide)]
  exact hloop fuel

/-! ## Tree builder: the preorder trace -/

theorem preorderF_append (xs ys : List PTree) :
    preorderF (xs ++ ys) = preorderF xs ++ preorderF ys := by
  induction xs with
  | nil => rfl
  | cons t ts ih => simp [preorderF, ih, List.append_assoc]

theorem stackTrace_cons (g : BFrame) (gs : List BFrame) (rc : List PTree) :
    stackTrace (g :: gs) rc
      = stackTrace gs rc ++ (g.finfo :: preorderF g.fchildren) := by
  simp [stackTrace, List.reverse_cons, List.map_append, List.flatten_append,
    List.append_assoc]

theorem popAttach_trace (lvl : Nat) :
    ∀ (fr : List BFrame) (rc : List PTree) (t : PTree),
      stackTrace (popAttach lvl fr rc t).1 (popAttach lvl fr rc t).2
        = stackTrace fr rc ++ preorderT t
  | [], rc, t => by
    simp [popAttach, stackTrace, preorderF_append, preorderF]
  | g :: gs, rc, t => by
    rw [popAttach]
    split
    · rw [popAttach_trace lvl gs rc _, stackTrace_cons]
      simp [preorderT, preorderF_append, preorderF, List.append_assoc]
    · rw [stackTrace_cons, stackTrace_cons]
      simp [preorderF_append, preorderF, List.append_assoc]

theorem popGE_trace (lvl : Nat) (fr : List BFrame) (rc : List PTree) :
    stackTrace (popGE lvl fr rc).1 (popGE lvl fr rc).2 = stackTrace fr rc := by
  cases fr with
  | nil => rfl
  | cons f fs =>
    rw [popGE]
    split
    · rw [popAttach_trace, stackTrace_cons]
      simp [preorderT]
    · rfl

theorem treeStep_trace (s : List BFrame × List PTree) (n : BNode) :
    stackTrace (treeStep s n).1 (treeStep s n).2 = stackTrace s.1 s.2 ++ [n] := by
  unfold treeStep
  have hpop := popGE_trace (levelOf n.ntype) s.1 s.2
  split
  · rw [stackTrace_cons, hpop]
    simp [preorderF]
  · split
    · rename_i rc heq
      rw [← hpop, heq]
      simp [stackTrace, preorderF_append, preorderF, preorderT]
    · rename_i g gs rc heq
      rw [← hpop, heq]
      show stackTrace (⟨g.finfo, g.fchildren ++ [PTree.node n []]⟩ :: gs) rc
        = stackTrace (g :: gs) rc ++ [n]
      rw [stackTrace_cons, stackTrace_cons]
      simp [preorderF_append, preorderF, preorderT, List.append_assoc]

theorem flushAttach_trace :
    ∀ (fr : List BFrame) (rc : List PTree) (t : PTree),
      preorderF (flushAttach fr rc t) = stackTrace fr rc ++ preorderT t
  | [], rc, t => by
    simp [flushAttach, stackTrace, preorderF_append, preorderF]
  | g :: gs, rc, t => by
    rw [flushAttach, flushAttach_trace gs rc _, stackTrace_cons]
    simp [preorderT, preorderF_append, preorderF, List.append_assoc]

theorem flushFrames_trace (fr : List BFrame) (rc : List PTree) :
    preorderF (flushFrames fr rc) = stackTrace fr rc := by
  cases fr with
  | nil => simp [flushFrames, stackTrace]
  | cons f fs =>
    rw [flushFrames, flushAttach_trace, stackTrace_cons]
    simp [preorderT]

theorem foldl_treeStep_trace (l : List BNode) :
    ∀ s : List BFrame × List PTree,
      stackTrace (l.foldl treeStep s).1 (l.foldl treeStep s).2
        = stackTrace s.1 s.2 ++ l := by
  induction l with
  | nil => intro s; simp
  | cons x xs ih =>
    intro s
    rw [List.foldl_cons, ih, treeStep_trace]
    simp

/-- The stack algorithm reads the input back in document order: the
preorder of the built forest is exactly the cleaned input list. -/
theorem buildForest_preorder (l : List BNode) : preorderF (buildForest l) = l := by
  unfold buildForest
  rw [flushFrames_trace, foldl_treeStep_trace]
  simp [stackTrace, preorderF]

/-! ## Tree builder: the level invariant -/

theorem framesOrdered_head {g : BFrame} {gs : List BFrame}
    (h : framesOrdered (g :: gs)) :
    ∀ x ∈ gs, levelOf x.finfo.ntype < levelOf g.finfo.ntype :=
  (List.pairwise_cons.mp h).1

theorem popAttach_wf (lvl : Nat) :
    ∀ (fr : List BFrame) (rc : List PTree) (t : PTree),
      stWF fr rc → WFT t →
      (∀ g ∈ fr.head?, levelOf g.finfo.ntype < levelOf (rootInfo t).ntype) →
      stWF (popAttach lvl fr rc t).1 (popAttach lvl fr rc t).2
      ∧ (∀ g ∈ (popAttach lvl fr rc t).1.head?, levelOf g.finfo.ntype < lvl)
  | [], rc, t, hwf, ht, _ => by
    refine ⟨⟨List.Pairwise.nil, fun f hf => absurd hf (List.not_mem_nil f), ?_⟩,
      by intro g hg; simp [popAttach] at hg⟩
    intro u hu
    rcases List.mem_append.mp hu with hu' | hu'
    · exact hwf.2.2 u hu'
    · rcases List.mem_singleton.mp hu' with rfl
      exact ht
  | g :: gs, rc, t, hwf, ht, hhead => by
    rcases hwf with ⟨hord, hch, hroot⟩
    have hgt : levelOf g.finfo.ntype < levelOf (rootInfo t).ntype :=
      hhead g (by simp)
    have ht' : WFT (PTree.node g.finfo (g.fchildren ++ [t])) := by
      refine WFT.node _ _ ?_ ?_
      · intro c hc
        rcases List.mem_append.mp hc with hc' | hc'
        · exact (hch g (List.mem_cons_self _ _) c hc').1
        · rcases List.mem_singleton.mp hc' with rfl
          exact hgt
      · intro c hc
        rcases List.mem_append.mp hc with hc' | hc'
        · exact (hch g (List.mem_cons_self _ _) c hc').2
        · rcases List.mem_singleton.mp hc' with rfl
          exact ht
    rw [popAttach]
    split
    · apply popAttach_wf lvl gs rc _
      · exact ⟨(List.pairwise_cons.mp hord).2,
          fun f hf c hc => hch f (List.mem_cons_of_mem _ hf) c hc, hroot⟩
      · exact ht'
      · intro g2 hg2
        cases hgs : gs with
        | nil => rw [hgs] at hg2; cases hg2
        | cons g3 gs3 =>
          rw [hgs] at hg2
          have hg3 : g2 = g3 := by
            have h4 := hg2
            simp at h4
            exact h4.symm
          subst hg3
          exact framesOrdered_head hord g2 (hgs ▸ List.mem_cons_self _ _)
    · rename_i hnot
      refine ⟨⟨?_, ?_, hroot⟩, ?_⟩
      · rw [framesOrdered, List.pairwise_cons]
        exact ⟨fun x hx => framesOrdered_head hord x hx, (List.pairwise_cons.mp hord).2⟩
      · intro f hf c hc
        rcases List.mem_cons.mp hf with rfl | hf'
        · rcases List.mem_append.mp hc with hc' | hc'
          · exact hch g (List.mem_cons_self _ _) c hc'
          · rcases List.mem_singleton.mp hc' with rfl
            exact ⟨hgt, ht⟩
        · exact hch f (List.mem_cons_of_mem _ hf') c hc
      · intro g2 hg2
        have hg2' : g2 = ⟨g.finfo, g.fchildren ++ [t]⟩ := by
          have h4 := hg2
          simp at h4
          exact h4.symm
        subst hg2'
        show levelOf g.finfo.ntype < lvl
        omega

theorem popGE_wf (lvl : Nat) (fr : List BFrame) (rc : List PTree)
    (h : stWF fr rc) :
    stWF (popGE lvl fr rc).1 (popGE lvl fr rc).2
    ∧ (∀ g ∈ (popGE lvl fr rc).1.head?, levelOf g.finfo.ntype < lvl) := by
  cases fr with
  | nil => exact ⟨h, by simp [popGE]⟩
  | cons f fs =>
    rw [popGE]
    split
    · apply popAttach_wf
      · exact ⟨(List.pairwise_cons.mp h.1).2,
          fun g hg c hc => h.2.1 g (List.mem_cons_of_mem _ hg) c hc, h.2.2⟩
      · refine WFT.node _ _ ?_ ?_
        · exact fun c hc => (h.2.1 f (List.mem_cons_self _ _) c hc).1
        · exact fun c hc => (h.2.1 f (List.mem_cons_self _ _) c hc).2
      · intro g2 hg2
        cases hfs : fs with
        | nil => rw [hfs] at hg2; cases hg2
        | cons g3 gs3 =>
          rw [hfs] at hg2
          have hg3 : g2 = g3 := by
            have h4 := hg2
            simp at h4
            exact h4.symm
          subst hg3
          exact framesOrdered_head h.1 g2 (hfs ▸ List.mem_cons_self _ _)
    · rename_i hnot
      refine ⟨h, ?_⟩
      intro g hg
      have hg' : g = f := by
        have h4 := hg
        simp at h4
        exact h4.symm
      subst hg'
      omega

theorem treeStep_wf (s : List BFrame × List PTree) (n : BNode)
    (h : stWF s.1 s.2) : stWF (treeStep s n).1 (treeStep s n).2 := by
  rcases popGE_wf (levelOf n.ntype) s.1 s.2 h with ⟨⟨hord, hch, hroot⟩, hhead⟩
  unfold treeStep
  split
  · refine ⟨?_, ?_, hroot⟩
    · rw [framesOrdered, List.pairwise_cons]
      refine ⟨?_, hord⟩
      intro g hg
      show levelOf g.finfo.ntype < levelOf n.ntype
      cases hfr : (popGE (levelOf n.ntype) s.1 s.2).1 with
      | nil => rw [hfr] at hg; cases hg
      | cons f2 fs2 =>
        rw [hfr] at hg
        have hf2 : levelOf f2.finfo.ntype < levelOf n.ntype := by
          have := hhead f2
          rw [hfr] at this
          exact this (by simp)
        rcases List.mem_cons.mp hg with rfl | hg'
        · exact hf2
        · have hlt := framesOrdered_head (hfr ▸ hord) g hg'
          omega
    · intro f hf c hc
      rcases List.mem_cons.mp hf with rfl | hf'
      · cases hc
      · exact hch f hf' c hc
  · split
    · rename_i rc heq
      rw [heq] at hord hch hroot
      refine ⟨List.Pairwise.nil, by simp, ?_⟩
      intro u hu
      rcases List.mem_append.mp hu with hu' | hu'
      · exact hroot u hu'
      · rcases List.mem_singleton.mp hu' with rfl
        exact WFT.node _ _ (by simp) (by simp)
    · rename_i g gs rc heq
      rw [heq] at hord hch hroot hhead
      refine ⟨?_, ?_, hroot⟩
      · rw [framesOrdered, List.pairwise_cons]
        exact ⟨fun x hx => framesOrdered_head hord x hx,
          (List.pairwise_cons.mp hord).2⟩
      · intro f hf c hc
        rcases List.mem_cons.mp hf with rfl | hf'
        · rcases List.mem_append.mp hc with hc' | hc'
          · exact hch g (List.mem_cons_self _ _) c hc'
          · rcases List.mem_singleton.mp hc' with rfl
            refine ⟨?_, WFT.node _ _ (by simp) (by simp)⟩
            exact hhead g (by simp)
        · exact hch f (List.mem_cons_of_mem _ hf') c hc

theorem flushAttach_wf :
    ∀ (fr : List BFrame) (rc : List PTree) (t : PTree),
      stWF fr rc → WFT t →
      (∀ g ∈ fr.head?, levelOf g.finfo.ntype < levelOf (rootInfo t).ntype) →
      ∀ u ∈ flushAttach fr rc t, WFT u
  | [], rc, t, hwf, ht, _ => by
    intro u hu
    rcases List.mem_append.mp hu with hu' | hu'
    · exact hwf.2.2 u hu'
    · rcases List.mem_singleton.mp hu' with rfl
      exact ht
  | g :: gs, rc, t, hwf, ht, hhead => by
    rcases hwf with ⟨hord, hch, hroot⟩
    have hgt : levelOf g.finfo.ntype < levelOf (rootInfo t).ntype :=
      hhead g (by simp)
    rw [flushAttach]
    apply flushAttach_wf gs rc _
    · exact ⟨(List.pairwise_cons.mp hord).2,
        fun f hf c hc => hch f (List.mem_cons_of_mem _ hf) c hc, hroot⟩
    · refine WFT.node _ _ ?_ ?_
      · intro c hc
        rcases List.mem_append.mp hc with hc' | hc'
        · exact (hch g (List.mem_cons_self _ _) c hc').1
        · rcases List.mem_singleton.mp hc' with rfl
          exact hgt
      · intro c hc
        rcases List.mem_append.mp hc with hc' | hc'
        · exact (hch g (List.mem_cons_self _ _) c hc').2
        · rcases List.mem_singleton.mp hc' with rfl
          exact ht
    · intro g2 hg2
      cases hgs : gs with
      | nil => rw [hgs] at hg2; cases hg2
      | cons g3 gs3 =>
        rw [hgs] at hg2
        have hg3 : g2 = g3 := by
          have h4 := hg2
          simp at h4
          exact h4.symm
        subst hg3
        exact framesOrdered_head hord g2 (hgs ▸ List.mem_cons_self _ _)

theorem flushFrames_wf (fr : List BFrame) (rc : List PTree)
    (h : stWF fr rc) : ∀ u ∈ flushFrames fr rc, WFT u := by
  cases fr with
  | nil => exact fun u hu => h.2.2 u hu
  | cons f fs =>
    rw [flushFrames]
    apply flushAttach_wf
    · exact ⟨(List.pairwise_cons.mp h.1).2,
        fun g hg c hc => h.2.1 g (List.mem_cons_of_mem _ hg) c hc, h.2.2⟩
    · refine WFT.node _ _ ?_ ?_
      · exact fun c hc => (h.2.1 f (List.mem_cons_self _ _) c hc).1
      · exact fun c hc => (h.2.1 f (List.mem_cons_self _ _) c hc).2
    · intro g2 hg2
      cases hfs : fs with
      | nil => rw [hfs] at hg2; cases hg2
      | cons g3 gs3 =>
        rw [hfs] at hg2
        have hg3 : g2 = g3 := by
          have h4 := hg2
          simp at h4
          exact h4.symm
        subst hg3
        exact framesOrdered_head h.1 g2 (hfs ▸ List.mem_cons_self _ _)

theorem foldl_treeStep_wf (l : List BNode) :
    ∀ s, stWF s.1 s.2 → stWF (l.foldl treeStep s).1 (l.foldl treeStep s).2 := by
  induction l with
  | nil => exact fun s h => h
  | cons x xs ih =>
    intro s h
    rw [List.foldl_cons]
    exact ih (treeStep s x) (treeStep_wf s x h)

theorem buildForest_wf (l : List BNode) : ∀ t ∈ buildForest l, WFT t := by
  unfold buildForest
  apply flushFrames_wf
  exact foldl_treeStep_wf l ([], [])
    ⟨List.Pairwise.nil, by simp, by simp⟩

/-! ## Rose-tree induction principles and traversal lemmas -/

theorem PTree.memRecP {motive : PTree → Prop}
    (h : ∀ i cs, (∀ c ∈ cs, motive c) → motive (PTree.node i cs)) :
    ∀ t, motive t := by
  have key : ∀ (n : Nat) (t : PTree), sizeOf t ≤ n → motive t := by
    intro n
    induction n with
    | zero =>
      intro t ht
      cases t with
      | node i cs =>
        rw [PTree.node.sizeOf_spec] at ht
        omega
    | succ n ih =>
      intro t ht
      cases t with
      | node i cs =>
        apply h
        intro c hc
        apply ih
        have h1 := List.sizeOf_lt_of_mem hc
        rw [PTree.node.sizeOf_spec] at ht
        omega
  exact fun t => key (sizeOf t) t (Nat.le_refl _)

theorem FTree.memRecF {motive : FTree → Prop}
    (h : ∀ i s secs arts, (∀ c ∈ secs, motive c) → (∀ c ∈ arts, motive c) →
      motive (FTree.mk i s secs arts)) :
    ∀ t, motive t := by
  have key : ∀ (n : Nat) (t : FTree), sizeOf t ≤ n → motive t := by
    intro n
    induction n with
    | zero =>
      intro t ht
      cases t with
      | mk i s secs arts =>
        rw [FTree.mk.sizeOf_spec] at ht
        omega
    | succ n ih =>
      intro t ht
      cases t with
      | mk i s secs arts =>
        apply h
        · intro c hc
          apply ih
          have h1 := List.sizeOf_lt_of_mem hc
          rw [FTree.mk.sizeOf_spec] at ht
          omega
        · intro c hc
          apply ih
          have h1 := List.sizeOf_lt_of_mem hc
          rw [FTree.mk.sizeOf_spec] at ht
          omega
  exact fun t => key (sizeOf t) t (Nat.le_refl _)

theorem mem_allPTF (ts : List PTree) (p : PTree) :
    p ∈ allPTF ts ↔ ∃ t ∈ ts, p ∈ allPT t := by
  induction ts with
  | nil => simp [allPTF]
  | cons t ts ih =>
    rw [allPTF, List.mem_append, ih]
    simp

theorem mem_allFTList (ts : List FTree) (q : FTree) :
    q ∈ allFTList ts ↔ ∃ t ∈ ts, q ∈ allFT t := by
  induction ts with
  | nil => simp [allFTList]
  | cons t ts ih =>
    rw [allFTList, List.mem_append, ih]
    simp

theorem self_mem_allPT (t : PTree) : t ∈ allPT t := by
  cases t with
  | node i cs => rw [allPT]; exact List.mem_cons_self _ _

theorem rootInfo_mem_preorderT (t : PTree) : rootInfo t ∈ preorderT t := by
  cases t with
  | node i cs => rw [preorderT]; exact List.mem_cons_self _ _

theorem roots_sublist_preorderF : ∀ cs : List PTree,
    (cs.map rootInfo).Sublist (preorderF cs)
  | [] => List.Sublist.refl []
  | t :: ts => by
    cases t with
    | node i cs' =>
      rw [List.map_cons, preorderF, preorderT]
      show List.Sublist (i :: List.map rootInfo ts)
        (i :: (preorderF cs' ++ preorderF ts))
      exact List.Sublist.cons₂ i
        ((roots_sublist_preorderF ts).trans (List.sublist_append_right _ _))

theorem preorderT_sublist_mem : ∀ (cs : List PTree) (c : PTree), c ∈ cs →
    (preorderT c).Sublist (preorderF cs)
  | [], c, hc => absurd hc (List.not_mem_nil c)
  | t :: ts, c, hc => by
    rw [preorderF]
    rcases List.mem_cons.mp hc with rfl | hc'
    · exact List.sublist_append_left _ _
    · exact (preorderT_sublist_mem ts c hc').trans (List.sublist_append_right _ _)

theorem children_sublist_preorderT :
    ∀ t : PTree, ∀ p ∈ allPT t,
      ((rootChildren p).map rootInfo).Sublist (preorderT t) := by
  intro t
  induction t using PTree.memRecP with
  | h i cs ih =>
    intro p hp
    rw [allPT] at hp
    rcases List.mem_cons.mp hp with rfl | hp'
    · rw [rootChildren, preorderT]
      exact (roots_sublist_preorderF cs).trans (List.sublist_cons_self _ _)
    · rcases (mem_allPTF cs p).mp hp' with ⟨c, hc, hpc⟩
      refine (ih c hc p hpc).trans ((preorderT_sublist_mem cs c hc).trans ?_)
      rw [preorderT]
      exact List.sublist_cons_self _ _

theorem children_sublist_preorderF (F : List PTree) :
    ∀ p ∈ allPTF F, ((rootChildren p).map rootInfo).Sublist (preorderF F) := by
  intro p hp
  rcases (mem_allPTF F p).mp hp with ⟨t, ht, hpt⟩
  exact (children_sublist_preorderT t p hpt).trans (preorderT_sublist_mem F t ht)

theorem WFT_allPT : ∀ t : PTree, WFT t → ∀ p ∈ allPT t, WFT p := by
  intro t
  induction t using PTree.memRecP with
  | h i cs ih =>
    intro hwf p hp
    rw [allPT] at hp
    rcases List.mem_cons.mp hp with rfl | hp'
    · exact hwf
    · rcases (mem_allPTF cs p).mp hp' with ⟨c, hc, hpc⟩
      cases hwf with
      | node _ _ h1 h2 => exact ih c hc (h2 c hc) p hpc

/-! ## The finalize bridge -/

theorem FTree_info_mk (i : BNode) (s : Option (List Char)) (secs arts : List FTree) :
    (FTree.mk i s secs arts).info = i := rfl

theorem FTree_sections_mk (i : BNode) (s : Option (List Char)) (secs arts : List FTree) :
    (FTree.mk i s secs arts).sections = secs := rfl

theorem FTree_articles_mk (i : BNode) (s : Option (List Char)) (secs arts : List FTree) :
    (FTree.mk i s secs arts).articles = arts := rfl

theorem FTree_fsummary_mk (i : BNode) (s : Option (List Char)) (secs arts : List FTree) :
    (FTree.mk i s secs arts).fsummary = s := rfl

theorem finalizeSecs_eq (cs : List PTree) :
    finalizeSecs cs
      = (cs.filter (fun c => levelOf (rootInfo c).ntype < 4)).map finalizeT := by
  induction cs with
  | nil => rfl
  | cons c cs ih =>
    by_cases h : levelOf (rootInfo c).ntype < 4
    · rw [finalizeSecs, if_pos h, ih, List.filter_cons_of_pos (by simpa using h),
        List.map_cons]
      rfl
    · rw [finalizeSecs, if_neg h, ih, List.filter_cons_of_neg (by simpa using h)]
      rfl

theorem finalizeT_info : ∀ p : PTree, (finalizeT p).info = rootInfo p
  | .node _ _ => rfl

theorem articleShell_info (p : PTree) : (articleShell p).info = rootInfo p := rfl

theorem finalizeT_node (i : BNode) (cs : List PTree) :
    finalizeT (PTree.node i cs)
      = FTree.mk i none (finalizeSecs cs)
          ((cs.filter (fun c => 4 ≤ levelOf (rootInfo c).ntype)).map articleShell) := rfl

/-- The central bridge: every node of a finalized well-formed tree whose
every subtree's children are a sublist of `bound` satisfies the level
invariant on both child lists, has both child-info lists sublists of
`bound`, and carries an info drawn from the tree's preorder. -/
theorem allFT_finalize_facts (bound : List BNode) :
    ∀ p : PTree, WFT p →
      (∀ p' ∈ allPT p, ((rootChildren p').map rootInfo).Sublist bound) →
      ∀ q ∈ allFT (finalizeT p),
        (∀ c ∈ q.sections, levelOf q.info.ntype < levelOf c.info.ntype)
        ∧ (∀ c ∈ q.articles, levelOf q.info.ntype < levelOf c.info.ntype)
        ∧ ((q.sections.map FTree.info).Sublist bound)
        ∧ ((q.articles.map FTree.info).Sublist bound)
        ∧ q.info ∈ preorderT p := by
  intro p
  induction p using PTree.memRecP with
  | h i cs ih =>
    intro hwf hsub q hq
    have hcssub : (cs.map rootInfo).Sublist bound := by
      have := hsub (PTree.node i cs) (self_mem_allPT _)
      rwa [rootChildren] at this
    have hlv : ∀ c ∈ cs, levelOf i.ntype < levelOf (rootInfo c).ntype := by
      cases hwf with
      | node _ _ h1 _ => exact h1
    have hwfc : ∀ c ∈ cs, WFT c := by
      cases hwf with
      | node _ _ _ h2 => exact h2
    rw [finalizeT_node] at hq
    simp only [allFT] at hq
    rcases List.mem_cons.mp hq with rfl | hq'
    · refine ⟨?_, ?_, ?_, ?_, ?_⟩
      · intro c hc
        rw [FTree_sections_mk, finalizeSecs_eq] at hc
        rcases List.mem_map.mp hc with ⟨c', hc', rfl⟩
        rw [FTree_info_mk, finalizeT_info]
        exact hlv c' (List.mem_filter.mp hc').1
      · intro c hc
        rw [FTree_articles_mk] at hc
        rcases List.mem_map.mp hc with ⟨c', hc', rfl⟩
        rw [FTree_info_mk, articleShell_info]
        exact hlv c' (List.mem_filter.mp hc').1
      · rw [FTree_sections_mk, finalizeSecs_eq, List.map_map]
        have hmap : (cs.filter (fun c => levelOf (rootInfo c).ntype < 4)).map
            (FTree.info ∘ finalizeT)
            = (cs.filter (fun c => levelOf (rootInfo c).ntype < 4)).map rootInfo :=
          List.map_congr_left (fun a _ => finalizeT_info a)
        rw [hmap]
        exact ((List.filter_sublist cs).map rootInfo).trans hcssub
      · rw [FTree_articles_mk, List.map_map]
        have hmap : (cs.filter (fun c => 4 ≤ levelOf (rootInfo c).ntype)).map
            (FTree.info ∘ articleShell)
            = (cs.filter (fun c => 4 ≤ levelOf (rootInfo c).ntype)).map rootInfo :=
          List.map_congr_left (fun a _ => rfl)
        rw [hmap]
        exact ((List.filter_sublist cs).map rootInfo).trans hcssub
      · rw [FTree_info_mk, preorderT]
        exact List.mem_cons_self _ _
    · rcases List.mem_append.mp hq' with hq2 | hq2
      · rcases (mem_allFTList _ q).mp hq2 with ⟨ft, hft, hqft⟩
        rw [finalizeSecs_eq] at hft
        rcases List.mem_map.mp hft with ⟨c', hc', rfl⟩
        have hc'' : c' ∈ cs := (List.mem_filter.mp hc').1
        have hsub' : ∀ p' ∈ allPT c',
            ((rootChildren p').map rootInfo).Sublist bound := by
          intro p' hp'
          apply hsub
          rw [allPT]
          exact List.mem_cons_of_mem _ ((mem_allPTF cs p').mpr ⟨c', hc'', hp'⟩)
        rcases ih c' hc'' (hwfc c' hc'') hsub' q hqft with ⟨h1, h2, h3, h4, h5⟩
        refine ⟨h1, h2, h3, h4, ?_⟩
        rw [preorderT]
        exact List.mem_cons_of_mem _
          (((preorderT_sublist_mem cs c' hc'').subset) h5)
      · rcases (mem_allFTList _ q).mp hq2 with ⟨ft, hft, hqft⟩
        rcases List.mem_map.mp hft with ⟨c', hc', rfl⟩
        have hc'' : c' ∈ cs := (List.mem_filter.mp hc').1
        have hq3 : q = articleShell c' := by
          rw [articleShell] at hqft
          simp only [allFT] at hqft
          rcases List.mem_cons.mp hqft with rfl | hq4
          · rfl
          · simp [allFTList] at hq4
        subst hq3
        rw [articleShell]
        refine ⟨?_, ?_, ?_, ?_, ?_⟩
        · intro c hc
          rw [FTree_sections_mk] at hc
          cases hc
        · intro c hc
          rw [FTree_articles_mk] at hc
          cases hc
        · rw [FTree_sections_mk]
          exact List.nil_sublist _
        · rw [FTree_articles_mk]
          exact List.nil_sublist _
        · rw [FTree_info_mk, preorderT]
          exact List.mem_cons_of_mem _
            (((preorderT_sublist_mem cs c' hc'').subset) (rootInfo_mem_preorderT c'))

/-! ## Claim C6 -/

/-- C6 (counterexample): the level invariant holds, but sibling order does
not survive finalization.  For the input `[chapter, article, section]`
(all with well-formed Thai titles) the chapter's children are, in input
order, the article then the section; `finalize_structure` emits the
`sections` list before the `articles` list, so the serialized sibling
order is section-then-article — not a subsequence of the input order. -/
theorem claim_C6_counterexample :
    ¬ (∀ (flat : List BNode), ∀ t ∈ build_tree flat, ∀ q ∈ allFT t,
        (∀ c ∈ q.sections, levelOf q.info.ntype < levelOf c.info.ntype)
        ∧ (∀ c ∈ q.articles, levelOf q.info.ntype < levelOf c.info.ntype)
        ∧ isSubseqOf (siblingInfos q) (cleanedList flat) = true) := by
  intro h
  have h2 := (h [⟨"chapter".data, "หมวด ๑".data, 0, 10, "x".data⟩,
      ⟨"article".data, "มาตรา ๑".data, 10, 20, "y".data⟩,
      ⟨"section".data, "ส่วน ๑".data, 20, 30, "z".data⟩]
    (FTree.mk ⟨"chapter".data, "หมวด ๑".data, 0, 10, "x".data⟩ none
      [FTree.mk ⟨"section".data, "ส่วน ๑".data, 20, 30, "z".data⟩ none [] []]
      [FTree.mk ⟨"article".data, "มาตรา ๑".data, 10, 20, "y".data⟩ none [] []])
    (List.Mem.head _)
    (FTree.mk ⟨"chapter".data, "หมวด ๑".data, 0, 10, "x".data⟩ none
      [FTree.mk ⟨"section".data, "ส่วน ๑".data, 20, 30, "z".data⟩ none [] []]
      [FTree.mk ⟨"article".data, "มาตรา ๑".data, 10, 20, "y".data⟩ none [] []])
    (List.Mem.head _)).2.2
  exact absurd h2 (by decide)

/-- C6 (amended): for every input list, every parent/child pair of the
returned forest satisfies `level(child) > level(parent)` (through both the
`sections` and the `articles` list), and each of the two child lists
separately preserves the relative input order (each is a sublist of the
cleaned input); but finalization serializes all sections before all
articles, so the combined sibling order need not follow input order. -/
theorem claim_C6_amended (flat : List BNode) :
    ∀ t ∈ build_tree flat, ∀ q ∈ allFT t,
      (∀ c ∈ q.sections, levelOf q.info.ntype < levelOf c.info.ntype)
      ∧ (∀ c ∈ q.articles, levelOf q.info.ntype < levelOf c.info.ntype)
      ∧ ((q.sections.map FTree.info).Sublist (cleanedList flat))
      ∧ ((q.articles.map FTree.info).Sublist (cleanedList flat)) := by
  intro t ht q hq
  unfold build_tree at ht
  rcases List.mem_map.mp ht with ⟨p, hp, rfl⟩
  have hwf : WFT p := buildForest_wf _ p hp
  have hsub : ∀ p' ∈ allPT p,
      ((rootChildren p').map rootInfo).Sublist (cleanedList flat) := by
    intro p' hp'
    have h1 := children_sublist_preorderF (buildForest (cleanedList flat)) p'
      ((mem_allPTF _ p').mpr ⟨p, hp, hp'⟩)
    rwa [buildForest_preorder] at h1
  rcases allFT_finalize_facts (cleanedList flat) p hwf hsub q hq
    with ⟨h1, h2, h3, h4,
      _⟩
  exact ⟨h1, h2, h3, h4⟩

/-- C6 (witness): the amended claim at the concrete mixed-order input,
instantiated at the chapter root and its article child. -/
theorem claim_C6_witness :
    levelOf (FTree.mk ⟨"chapter".data, "หมวด ๑".data, 0, 10, "x".data⟩ none
        [FTree.mk ⟨"section".data, "ส่วน ๑".data, 20, 30, "z".data⟩ none [] []]
        [FTree.mk ⟨"article".data, "มาตรา ๑".data, 10, 20, "y".data⟩ none [] []]).info.ntype
      < levelOf (FTree.mk ⟨"article".data, "มาตรา ๑".data, 10, 20, "y".data⟩ none
          [] [] : FTree).info.ntype :=
  (claim_C6_amended [⟨"chapter".data, "หมวด ๑".data, 0, 10, "x".data⟩,
      ⟨"article".data, "มาตรา ๑".data, 10, 20, "y".data⟩,
      ⟨"section".data, "ส่วน ๑".data, 20, 30, "z".data⟩]
    (FTree.mk ⟨"chapter".data, "หมวด ๑".data, 0, 10, "x".data⟩ none
      [FTree.mk ⟨"section".data, "ส่วน ๑".data, 20, 30, "z".data⟩ none [] []]
      [FTree.mk ⟨"article".data, "มาตรา ๑".data, 10, 20, "y".data⟩ none [] []])
    (List.Mem.head _)
    (FTree.mk ⟨"chapter".data, "หมวด ๑".data, 0, 10, "x".data⟩ none
      [FTree.mk ⟨"section".data, "ส่วน ๑".data, 20, 30, "z".data⟩ none [] []]
      [FTree.mk ⟨"article".data, "มาตรา ๑".data, 10, 20, "y".data⟩ none [] []])
    (List.Mem.head _)).2.1
    (FTree.mk ⟨"article".data, "มาตรา ๑".data, 10, 20, "y".data⟩ none [] [])
    (List.Mem.head _)

/-! ## Claim C10 -/

theorem cleanedList_passes (l : List BNode) :
    ∀ n ∈ cleanedList l, passesFilter n = true := by
  intro n hn
  unfold cleanedList at hn
  rcases List.mem_map.mp hn with ⟨m, hm, rfl⟩
  have hpm : passesFilter m = true := (List.mem_filter.mp hm).2
  unfold cleanNode
  split
  · rename_i hpre
    unfold passesFilter
    rw [Bool.or_eq_true]
    exact Or.inr hpre
  · exact hpm

/-- C10 (confirmed): every node of the returned forest passes the title or
preamble filter of lines 59-67, so a node whose title starts with none of
the five Thai header words and whose type is not `preamble` is silently
dropped — it appears nowhere in the output, together with its text span,
and the forest's units need not cover all input units. -/
theorem claim_C10 (flat : List BNode) :
    ∀ t ∈ build_tree flat, ∀ q ∈ allFT t, passesFilter q.info = true := by
  intro t ht q hq
  unfold build_tree at ht
  rcases List.mem_map.mp ht with ⟨p, hp, rfl⟩
  have hwf : WFT p := buildForest_wf _ p hp
  have hsub : ∀ p' ∈ allPT p,
      ((rootChildren p').map rootInfo).Sublist (cleanedList flat) := by
    intro p' hp'
    have h1 := children_sublist_preorderF (buildForest (cleanedList flat)) p'
      ((mem_allPTF _ p').mpr ⟨p, hp, hp'⟩)
    rwa [buildForest_preorder] at h1
  have h5 := (allFT_finalize_facts (cleanedList flat) p hwf hsub q hq).2.2.2.2
  have h6 : q.info ∈ cleanedList flat := by
    have h7 := preorderT_sublist_mem (buildForest (cleanedList flat)) p hp
    rw [buildForest_preorder] at h7
    exact h7.subset h5
  exact cleanedList_passes flat q.info h6

/-- C10 (witness): with input `[chapter "หมวด ๑", junk "Random"]` the junk
node is dropped: the only returned node passes the filter, and the junk
node (which does not) is therefore absent from the forest. -/
theorem claim_C10_witness :
    passesFilter (FTree.mk ⟨"chapter".data, "หมวด ๑".data, 0, 10, "x".data⟩
        none [] [] : FTree).info = true
    ∧ passesFilter (⟨"chapter".data, "Random".data, 10, 20, "y".data⟩ : BNode)
        = false :=
  ⟨claim_C10 [⟨"chapter".data, "หมวด ๑".data, 0, 10, "x".data⟩,
      ⟨"chapter".data, "Random".data, 10, 20, "y".data⟩]
    (FTree.mk ⟨"chapter".data, "หมวด ๑".data, 0, 10, "x".data⟩ none [] [])
    (List.Mem.head _)
    (FTree.mk ⟨"chapter".data, "หมวด ๑".data, 0, 10, "x".data⟩ none [] [])
    (List.Mem.head _), by decide⟩

/-! ## Claim C9 -/

theorem self_mem_allFT (t : FTree) : t ∈ allFT t := by
  cases t with
  | mk i s secs arts =>
    simp only [allFT]
    exact List.mem_cons_self _ _

theorem allFT_trans_secs {i : BNode} {s0 : Option (List Char)}
    {secs arts : List FTree} {c : FTree} (hc : c ∈ secs) :
    ∀ q ∈ allFT c, q ∈ allFT (FTree.mk i s0 secs arts) := by
  intro q hq
  simp only [allFT]
  exact List.mem_cons_of_mem _
    (List.mem_append.mpr (Or.inl ((mem_allFTList secs q).mpr ⟨c, hc, hq⟩)))

theorem summarizeList_eq (svc : List Char → Option (List Char))
    (gsum : List Char) :
    ∀ ts : List FTree, summarizeList svc gsum ts = ts.map (summarizeF svc gsum)
  | [] => rfl
  | t :: ts => by
    rw [summarizeList, summarizeList_eq svc gsum ts, List.map_cons]

/-- C9 (counterexample): a childless node (a leaf section, a root-level
preamble or article) is returned untouched by the summarization pass —
its `summary` key is never set, even with a service that always succeeds. -/
theorem claim_C9_counterexample :
    ¬ (∀ (svc : List Char → Option (List Char)) (gsum : List Char) (t : FTree),
        ∀ q ∈ allFT (summarizeF svc gsum t), q.fsummary.isSome = true) := by
  intro h
  have h2 := h (fun _ => some "ok".data) []
    (FTree.mk ⟨"chapter".data, "c".data, 0, 1, "t".data⟩ none [] [])
    (FTree.mk ⟨"chapter".data, "c".data, 0, 1, "t".data⟩ none [] [])
    (List.Mem.head _)
  exact absurd h2 (by decide)

/-- C9 (amended): the pass is a total function (it never raises and never
aborts the traversal), children are summarized before their parent, and
for every tree whose article entries are leaves (as `build_tree` always
produces): every node that has at least one child receives a summary,
every node in an `articles` list receives a summary, and when the service
always fails those summaries are exactly the placeholder `"요약 생성 실패"`;
childless nodes are left without a summary (see the counterexample). -/
theorem claim_C9_amended (svc : List Char → Option (List Char)) (gsum : List Char)
    (t : FTree)
    (harts : ∀ q ∈ allFT t, ∀ a ∈ q.articles,
      a.sections.isEmpty = true ∧ a.articles.isEmpty = true) :
    ∀ q ∈ allFT (summarizeF svc gsum t),
      ((q.sections.isEmpty = false ∨ q.articles.isEmpty = false) →
        q.fsummary.isSome = true)
      ∧ (∀ a ∈ q.articles, a.fsummary.isSome = true)
      ∧ ((∀ prompt, svc prompt = none) →
          (q.sections.isEmpty = false ∨ q.articles.isEmpty = false) →
          q.fsummary = some placeholderSummary)
      ∧ ((∀ prompt, svc prompt = none) → ∀ a ∈ q.articles,
          a.fsummary = some placeholderSummary) := by
  induction t using FTree.memRecF with
  | h i s secs arts ihs iha =>
    intro q hq
    by_cases hemp : (secs.isEmpty && arts.isEmpty) = true
    · rw [Bool.and_eq_true] at hemp
      have hs0 : secs = [] := by
        cases secs with
        | nil => rfl
        | cons a as => simp at hemp
      have ha0 : arts = [] := by
        cases arts with
        | nil => rfl
        | cons a as => simp at hemp
      subst hs0
      subst ha0
      have hfix : summarizeF svc gsum (FTree.mk i s [] []) = FTree.mk i s [] [] := by
        simp [summarizeF]
      rw [hfix] at hq
      simp only [allFT, allFTList] at hq
      rcases List.mem_cons.mp hq with rfl | hq2
      · refine ⟨?_, ?_, ?_, ?_⟩
        · intro hcontra
          rcases hcontra with hc | hc <;> simp [FTree_sections_mk, FTree_articles_mk] at hc
        · intro a ha
          rw [FTree_articles_mk] at ha
          cases ha
        · intro _ hcontra
          rcases hcontra with hc | hc <;> simp [FTree_sections_mk, FTree_articles_mk] at hc
        · intro _ a ha
          rw [FTree_articles_mk] at ha
          cases ha
      · simp at hq2
    · have hfix : summarizeF svc gsum (FTree.mk i s secs arts)
          = FTree.mk i
              (some (callSummary svc (parentPrompt gsum i.title
                (boundedChildSummaries (childSummaries (summarizeList svc gsum secs)
                  (arts.map (fun a => FTree.mk a.info
                    (some (callSummary svc (articlePrompt gsum a.info)))
                    a.sections a.articles)))))))
              (summarizeList svc gsum secs)
              (arts.map (fun a => FTree.mk a.info
                (some (callSummary svc (articlePrompt gsum a.info)))
                a.sections a.articles)) := by
        simp only [summarizeF, hemp]
        rw [if_neg (by simp_all)]
      rw [hfix] at hq
      simp only [allFT] at hq
      rcases List.mem_cons.mp hq with rfl | hq2
      · refine ⟨?_, ?_, ?_, ?_⟩
        · intro _
          rfl
        · intro a ha
          rw [FTree_articles_mk] at ha
          rcases List.mem_map.mp ha with ⟨a0, _, rfl⟩
          rfl
        · intro hfail _
          rw [FTree_fsummary_mk]
          unfold callSummary
          rw [hfail]
        · intro hfail a ha
          rw [FTree_articles_mk] at ha
          rcases List.mem_map.mp ha with ⟨a0, _, rfl⟩
          rw [FTree_fsummary_mk]
          unfold callSummary
          rw [hfail]
      · rcases List.mem_append.mp hq2 with hq3 | hq3
        · rcases (mem_allFTList _ q).mp hq3 with ⟨ft, hft, hqft⟩
          rw [summarizeList_eq] at hft
          rcases List.mem_map.mp hft with ⟨c, hc, rfl⟩
          have harts' : ∀ q' ∈ allFT c, ∀ a ∈ q'.articles,
              a.sections.isEmpty = true ∧ a.articles.isEmpty = true := by
            intro q' hq' a ha
            exact harts q' (allFT_trans_secs hc q' hq') a ha
          exact ihs c hc harts' q hqft
        · rcases (mem_allFTList _ q).mp hq3 with ⟨ft, hft, hqft⟩
          rcases List.mem_map.mp hft with ⟨a0, ha0, rfl⟩
          have ha0' := harts (FTree.mk i s secs arts)
            (self_mem_allFT _) a0 (by rw [FTree_articles_mk]; exact ha0)
          have hsa : a0.sections = [] := by
            cases hh : a0.sections with
            | nil => rfl
            | cons x xs => rw [hh] at ha0'; simp at ha0'
          have haa : a0.articles = [] := by
            cases hh : a0.articles with
            | nil => rfl
            | cons x xs => rw [hh] at ha0'; simp at ha0'
          have hshape : FTree.mk a0.info
              (some (callSummary svc (articlePrompt gsum a0.info)))
              a0.sections a0.articles
              = FTree.mk a0.info
                  (some (callSummary svc (articlePrompt gsum a0.info))) [] [] := by
            rw [hsa, haa]
          rw [hshape] at hqft
          simp only [allFT, allFTList] at hqft
          rcases List.mem_cons.mp hqft with rfl | hq4
          · refine ⟨fun _ => rfl, ?_, fun _ _ => ?_, ?_⟩
            · intro a ha
              rw [FTree_articles_mk] at ha
              cases ha
            · rw [FTree_fsummary_mk]
              unfold callSummary
              rename_i hfail _
              rw [hfail]
            · intro _ a ha
              rw [FTree_articles_mk] at ha
              cases ha
          · simp at hq4

/-- C9 (witness): with an always-failing service, the root of a concrete
chapter-with-one-article tree still receives a summary. -/
theorem claim_C9_witness :
    (summarizeF (fun _ => none) []
      (FTree.mk ⟨"chapter".data, "c".data, 0, 1, "t".data⟩ none []
        [FTree.mk ⟨"article".data, "a".data, 0, 1, "u".data⟩ none [] []])).fsummary.isSome
      = true :=
  (claim_C9_amended (fun _ => none) []
    (FTree.mk ⟨"chapter".data, "c".data, 0, 1, "t".data⟩ none []
      [FTree.mk ⟨"article".data, "a".data, 0, 1, "u".data⟩ none [] []])
    (by decide)
    (summarizeF (fun _ => none) []
      (FTree.mk ⟨"chapter".data, "c".data, 0, 1, "t".data⟩ none []
        [FTree.mk ⟨"article".data, "a".data, 0, 1, "u".data⟩ none [] []]))
    (List.Mem.head _)).1 (Or.inr (by decide))

end DocPrep
